import Mathlib

/-!
Shallow embedding of the ffopy optical wavefront-error library.

Conventions used throughout this development:
* 2D arrays are embedded as functions `ℕ → ℕ → ℂ` (or `→ ℝ`) together with an
  explicit side length; sums run over `Finset.range`.
* IEEE floating-point values are embedded as real numbers; NaN/Inf propagation
  (which several routines test with `np.isfinite`) is embedded as `Option ℝ`,
  `none` standing for a non-finite value.
* The Python sources are a line-by-line transliteration of the original IDL
  code.  Where a line has no executable Python meaning (e.g. the IDL clamp
  operators `>`/`<` left in place, `np.fft.fft2d`, `np.shift`), the embedding
  follows the documented IDL semantics of that line; each such place is noted
  in a comment next to the definition.
-/

noncomputable section

open Finset

/-! ## wfe2strehl (src/wfe2strehl.py)

`wfe2strehl(wfe)` forms the scalar field `Efield = np.exp(2.0j * np.pi * wfe)`
and returns `(abs(Efield.sum()) / np.abs(Efield).sum()) ** 2`. -/

/-- The scalar E-field `np.exp(2.0j * np.pi * wfe)` at one sample. -/
def Efield (wfe : ℕ → ℕ → ℂ) (i j : ℕ) : ℂ :=
  Complex.exp (2 * Real.pi * Complex.I * wfe i j)

/-- `wfe2strehl` from src/wfe2strehl.py for an `n × n` map:
`np.square(np.divide(np.abs(Efield.sum()), np.abs(Efield).sum()))`. -/
def wfe2strehl (n : ℕ) (wfe : ℕ → ℕ → ℂ) : ℝ :=
  (Complex.abs (∑ i ∈ range n, ∑ j ∈ range n, Efield wfe i j) /
    ∑ i ∈ range n, ∑ j ∈ range n, Complex.abs (Efield wfe i j)) ^ 2

lemma abs_sum_Efield_le (n : ℕ) (wfe : ℕ → ℕ → ℂ) :
    Complex.abs (∑ i ∈ range n, ∑ j ∈ range n, Efield wfe i j) ≤
      ∑ i ∈ range n, ∑ j ∈ range n, Complex.abs (Efield wfe i j) := by
  refine le_trans (Complex.abs.sum_le _ _) (Finset.sum_le_sum ?_)
  intro i _
  exact Complex.abs.sum_le _ _

lemma sum_abs_Efield_nonneg (n : ℕ) (wfe : ℕ → ℕ → ℂ) :
    0 ≤ ∑ i ∈ range n, ∑ j ∈ range n, Complex.abs (Efield wfe i j) := by
  refine Finset.sum_nonneg fun i _ => Finset.sum_nonneg fun j _ => ?_
  exact AbsoluteValue.nonneg _ _

/-- C3: the exact Strehl ratio of `wfe2strehl` lies in `[0, 1]`, and equals `1`
whenever the map is identically `0` on the array (real part uniformly zero over
a fully transmissive aperture, imaginary part zero everywhere) and the array is
nonempty. -/
theorem wfe2strehl_bounds (n : ℕ) (wfe : ℕ → ℕ → ℂ) :
    0 ≤ wfe2strehl n wfe ∧ wfe2strehl n wfe ≤ 1 ∧
      (1 ≤ n → (∀ i j, i < n → j < n → wfe i j = 0) → wfe2strehl n wfe = 1) := by
  refine ⟨sq_nonneg _, ?_, ?_⟩
  · unfold wfe2strehl
    rcases eq_or_lt_of_le (sum_abs_Efield_nonneg n wfe) with h | h
    · rw [← h, div_zero]
      norm_num
    · have hle : Complex.abs (∑ i ∈ range n, ∑ j ∈ range n, Efield wfe i j) /
          (∑ i ∈ range n, ∑ j ∈ range n, Complex.abs (Efield wfe i j)) ≤ 1 :=
        (div_le_one h).mpr (abs_sum_Efield_le n wfe)
      have hnn : 0 ≤ Complex.abs (∑ i ∈ range n, ∑ j ∈ range n, Efield wfe i j) /
          (∑ i ∈ range n, ∑ j ∈ range n, Complex.abs (Efield wfe i j)) :=
        div_nonneg (AbsoluteValue.nonneg _ _) h.le
      calc (Complex.abs (∑ i ∈ range n, ∑ j ∈ range n, Efield wfe i j) /
              ∑ i ∈ range n, ∑ j ∈ range n, Complex.abs (Efield wfe i j)) ^ 2
          ≤ 1 ^ 2 := by
            exact pow_le_pow_left₀ hnn hle 2
        _ = 1 := one_pow 2
  · intro hn hz
    have hE : ∀ i ∈ range n, ∀ j ∈ range n, Efield wfe i j = 1 := by
      intro i hi j hj
      rw [Efield, hz i j (mem_range.mp hi) (mem_range.mp hj)]
      simp
    have hsum : (∑ i ∈ range n, ∑ j ∈ range n, Efield wfe i j) = (n : ℂ) * n := by
      rw [Finset.sum_congr rfl fun i hi => Finset.sum_congr rfl fun j hj => hE i hi j hj]
      simp [mul_comm]
    have habs : (∑ i ∈ range n, ∑ j ∈ range n, Complex.abs (Efield wfe i j)) =
        (n : ℝ) * n := by
      rw [Finset.sum_congr rfl fun i hi => Finset.sum_congr rfl fun j hj => by
        rw [hE i hi j hj, Complex.abs.map_one]]
      simp [mul_comm]
    have hnpos : (0 : ℝ) < (n : ℝ) * n := by
      have : (0 : ℝ) < (n : ℝ) := by exact_mod_cast hn
      positivity
    rw [wfe2strehl, hsum, habs]
    rw [show ((n : ℂ) * n) = (((n : ℝ) * n : ℝ) : ℂ) by push_cast; ring]
    rw [Complex.abs_ofReal, abs_of_pos hnpos, div_self hnpos.ne']
    norm_num

/-- Witness for C3 at `n = 1`, `wfe = 0`. -/
theorem wfe2strehl_bounds_witness :
    0 ≤ wfe2strehl 1 (fun _ _ => 0) ∧ wfe2strehl 1 (fun _ _ => 0) ≤ 1 ∧
      wfe2strehl 1 (fun _ _ => 0) = 1 := by
  obtain ⟨h0, h1, h2⟩ := wfe2strehl_bounds 1 (fun _ _ => 0)
  exact ⟨h0, h1, h2 le_rfl (fun _ _ _ _ => rfl)⟩

/-- C10: the exact Strehl ratio is invariant under adding a uniform real piston
`c` to the wavefront map: the factor `exp(i·2π·c)` has unit modulus and factors
out of both the summed field and its magnitude. -/
theorem wfe2strehl_piston_invariant (n : ℕ) (wfe : ℕ → ℕ → ℂ) (c : ℝ) :
    wfe2strehl n (fun i j => wfe i j + (c : ℂ)) = wfe2strehl n wfe := by
  have hE : ∀ i j, Efield (fun i j => wfe i j + (c : ℂ)) i j =
      Complex.exp (2 * Real.pi * Complex.I * c) * Efield wfe i j := by
    intro i j
    rw [Efield, Efield, ← Complex.exp_add]
    ring_nf
  have habs1 : Complex.abs (Complex.exp (2 * Real.pi * Complex.I * c)) = 1 := by
    rw [Complex.abs_exp]
    have : (2 * Real.pi * Complex.I * c).re = 0 := by simp [Complex.mul_re]
    rw [this, Real.exp_zero]
  unfold wfe2strehl
  have hsum : (∑ i ∈ range n, ∑ j ∈ range n,
      Efield (fun i j => wfe i j + (c : ℂ)) i j) =
      Complex.exp (2 * Real.pi * Complex.I * c) *
        ∑ i ∈ range n, ∑ j ∈ range n, Efield wfe i j := by
    rw [Finset.mul_sum]
    refine Finset.sum_congr rfl fun i _ => ?_
    rw [Finset.mul_sum]
    exact Finset.sum_congr rfl fun j _ => hE i j
  have habs : (∑ i ∈ range n, ∑ j ∈ range n,
      Complex.abs (Efield (fun i j => wfe i j + (c : ℂ)) i j)) =
      ∑ i ∈ range n, ∑ j ∈ range n, Complex.abs (Efield wfe i j) := by
    refine Finset.sum_congr rfl fun i _ => Finset.sum_congr rfl fun j _ => ?_
    rw [hE i j, map_mul, habs1, one_mul]
  rw [hsum, habs, map_mul, habs1, one_mul]

/-! ## periodogram_fft (src/periodogram_fft.py)

`periodogram_fft(data, retain_dc=True)` optionally subtracts the sample mean
(`retain_dc` unset), multiplies by a Hann window, and returns
`np.square(np.abs(fft)) * 2.6666667 * Nx` (1D branch).  Non-finite values are
embedded as `Option ℝ` with `none` for NaN/Inf: one NaN in the input makes the
whole output NaN, because the mean and every DFT bin sum over all samples and
`NaN * 0 = NaN` in IEEE arithmetic (the Hann window cannot mask it). -/

/-- `np.hanning M` at index `k`: `0.5 - 0.5*cos(2*pi*k/(M-1))`, and `[1.]`
when `M = 1`. -/
def hanning (M : ℕ) (k : ℕ) : ℝ :=
  if M = 1 then 1 else 1 / 2 - 1 / 2 * Real.cos (2 * Real.pi * k / ((M : ℝ) - 1))

/-- Sample mean of a list (`data.mean()`). -/
def meanL (x : List ℝ) : ℝ := x.sum / x.length

/-- Squared magnitude of bin `k` of the forward DFT of a real list
(`np.square(np.abs(np.fft.fft(x)))[k]`). -/
def dftPower (x : List ℝ) (k : ℕ) : ℝ :=
  Complex.normSq (∑ j ∈ Finset.range x.length, (x.getD j 0 : ℂ) *
    Complex.exp (-(2 * Real.pi * Complex.I) * j * k / x.length))

/-- Pointwise multiplication by the Hann window (`data_corrected * np.hanning(Nx)`). -/
def hannWindowed (x : List ℝ) : List ℝ :=
  (List.range x.length).map (fun j => x.getD j 0 * hanning x.length j)

/-- The 1D branch of `periodogram_fft` on finite data: subtract the mean unless
`retain_dc`, Hann-window, and scale the squared DFT magnitudes by
`2.6666667 * Nx`. -/
def periodogram_fft_vals (data : List ℝ) (retain_dc : Bool) : List ℝ :=
  (List.range data.length).map (fun k =>
    dftPower (hannWindowed
      (if retain_dc then data else data.map (fun v => v - meanL data))) k *
      2.6666667 * data.length)

/-- `periodogram_fft` (1D) over possibly non-finite data.  The source's default
is `retain_dc = True` (src/periodogram_fft.py line 34).  A `none` (NaN) input
sample poisons every output bin, modelling IEEE NaN propagation through the
mean and the DFT sums. -/
def periodogram_fft (data : List (Option ℝ)) (retain_dc : Bool := true) :
    List (Option ℝ) :=
  if data.any Option.isNone then List.replicate data.length none
  else (periodogram_fft_vals (data.map (fun v => v.getD 0)) retain_dc).map some

/-! ## powerspec (src/powerspec.py)

Welch's method in 1D: overlapping segments of length `Nfreq` (the Python slice
`data[x0 : x0 + Nfreq - 1]` keeps `Nfreq - 1` samples), a periodogram per
segment, then aggregation of the finite segments.  The source computes
`ss = np.isfinite(spectra[:, 0])` and then `Nvalid = ss.size()`, i.e. the size
of the boolean mask — the TOTAL segment count, not the number of valid
segments — and divides the sum of the valid spectra by that `Nvalid`.
`Nfreq < 4` raises `ValueError`; `Nseg < 2` only prints a diagnostic and falls
through. -/

/-- `Nseg = np.ceil(np.divide(2.0 * N, Nfreq)) - 1`. -/
def NsegOf (N Nfreq : ℕ) : ℤ := ⌈(2 * N : ℚ) / Nfreq⌉ - 1

/-- `xsep = np.divide(N - Nfreq, Nseg - 1) * (1 - 1e-6)`. -/
def xsepOf (N Nfreq : ℕ) : ℝ :=
  ((N : ℝ) - Nfreq) / ((NsegOf N Nfreq : ℝ) - 1) * (1 - 1 / 1000000)

/-- The segment list: for `i < Nseg`, `x0 = np.round(i * xsep)` and the Python
slice `data[x0 : x0 + Nfreq - 1]` (which keeps `Nfreq - 1` samples).
`np.round` rounds halves to even, Mathlib's `round` rounds halves up; no
half-integer product `i * xsep` arises for the inputs considered here. -/
def powersSegments (data : List (Option ℝ)) (Nfreq : ℕ) :
    List (List (Option ℝ)) :=
  (List.range (NsegOf data.length Nfreq).toNat).map (fun i : ℕ =>
    (data.drop (round ((i : ℝ) * xsepOf data.length Nfreq)).toNat).take (Nfreq - 1))

/-- NaN-propagating addition on embedded IEEE values. -/
def oadd : Option ℝ → Option ℝ → Option ℝ
  | some x, some y => some (x + y)
  | _, _ => none

/-- Elementwise sum of a list of spectra over bins `0, …, len-1`
(`spectra[ss].sum(axis=...)` — IDL `total` over the segment axis). -/
def sumSpectra (sps : List (List (Option ℝ))) (len : ℕ) : List (Option ℝ) :=
  (List.range len).map (fun k => sps.foldr (fun sp acc => oadd (sp.getD k none) acc) (some 0))

/-- The per-segment spectra of `powerspec`:
`spectra[i] = periodogram_fft(segment, retain_dc=retain_dc)`. -/
def powerspecSpectra (data : List (Option ℝ)) (Nfreq : ℕ) (retain_dc : Bool) :
    List (List (Option ℝ)) :=
  (powersSegments data Nfreq).map (fun s => periodogram_fft s retain_dc)

/-- The aggregation step of `powerspec`:
`ss = np.isfinite(spectra[:, 0])`, `Nvalid = ss.size()` (the size of the
boolean mask, i.e. the TOTAL segment count), and
`power = np.divide(spectra[ss].sum(...), Nvalid)` — the sum of the valid
spectra divided by the total count. -/
def powerspecPower (data : List (Option ℝ)) (Nfreq : ℕ) (retain_dc : Bool) :
    List (Option ℝ) :=
  (sumSpectra ((powerspecSpectra data Nfreq retain_dc).filter
      (fun sp => (sp.getD 0 none).isSome)) (Nfreq - 1)).map
    (Option.map (fun v => v / ((powerspecSpectra data Nfreq retain_dc).length : ℝ)))

/-- `powerspec(data, Nfreq, retain_dc=False)`.  Returns `Except.error` exactly
when `Nfreq < 4` (the only `raise` in the source); when fewer than 2 segments
fit the source merely prints a message and continues, so no error is produced
on that path. -/
def powerspec (data : List (Option ℝ)) (Nfreq : ℕ) (retain_dc : Bool := false) :
    Except String (List (Option ℝ)) :=
  if Nfreq < 4 then
    Except.error "Nfreq is less than 4. Setting Nfreq = 4"
  else
    Except.ok (powerspecPower data Nfreq retain_dc)

/-- The aggregation the specification describes for Welch averaging: the sum of
the valid (finite) segment spectra divided by the number of VALID segments. -/
def welchValidAverage (sps : List (List (Option ℝ))) (len : ℕ) : List (Option ℝ) :=
  (sumSpectra (sps.filter (fun sp => (sp.getD 0 none).isSome)) len).map
    (Option.map (fun v =>
      v / ((sps.filter (fun sp => (sp.getD 0 none).isSome)).length : ℝ)))

/-! ### Concrete Hann window values -/

lemma cosTwoPiDivThree : Real.cos (2 * Real.pi / 3) = -(1 / 2) := by
  have h : 2 * Real.pi / 3 = Real.pi - Real.pi / 3 := by ring
  rw [h, Real.cos_pi_sub, Real.cos_pi_div_three]

lemma cosFourPiDivThree : Real.cos (2 * Real.pi * 2 / 3) = -(1 / 2) := by
  have h : 2 * Real.pi * 2 / 3 = Real.pi + Real.pi / 3 := by ring
  rw [h, Real.cos_add, Real.cos_pi, Real.sin_pi, Real.cos_pi_div_three]
  ring

lemma hanning_three : hanning 3 0 = 0 ∧ hanning 3 1 = 1 ∧ hanning 3 2 = 0 := by
  refine ⟨?_, ?_, ?_⟩ <;> rw [hanning] <;> norm_num

lemma hanning_four : hanning 4 0 = 0 ∧ hanning 4 1 = 3 / 4 ∧
    hanning 4 2 = 3 / 4 ∧ hanning 4 3 = 0 := by
  refine ⟨?_, ?_, ?_, ?_⟩ <;> rw [hanning]
  · norm_num
  · norm_num
    rw [cosTwoPiDivThree]
    norm_num
  · norm_num
    rw [show (2 * Real.pi * 2 / 3 : ℝ) = Real.pi + Real.pi / 3 by ring,
      Real.cos_add, Real.cos_pi, Real.sin_pi, Real.cos_pi_div_three]
    norm_num
  · norm_num

lemma sum_getD_complex (x : List ℝ) :
    (∑ j ∈ Finset.range x.length, ((x.getD j 0 : ℝ) : ℂ)) = ((x.sum : ℝ) : ℂ) := by
  induction x with
  | nil => simp
  | cons a t ih =>
      rw [List.length_cons, Finset.sum_range_succ']
      simp only [List.getD_cons_succ, List.getD_cons_zero, List.sum_cons]
      rw [ih]
      push_cast
      ring

/-- Bin 0 of the squared DFT magnitudes is the squared sum of the samples. -/
lemma dftPower_zero_bin (x : List ℝ) : dftPower x 0 = x.sum ^ 2 := by
  rw [dftPower]
  simp only [Nat.cast_zero, mul_zero, zero_div, Complex.exp_zero, mul_one]
  rw [sum_getD_complex, Complex.normSq_ofReal, sq]

/-- Failing input for the `retain_dc` default of `periodogram_fft`. -/
def pdC7 : List (Option ℝ) := [some 0, some 2, some 0, some 0]

lemma pdC7_vals_retain :
    (periodogram_fft pdC7).getD 0 none = some (9 / 4 * 2.6666667 * 4) := by
  obtain ⟨h0, h1, h2, h3⟩ := hanning_four
  show ((periodogram_fft_vals [0, 2, 0, 0] true).map some).getD 0 none = _
  have hw : hannWindowed [0, 2, 0, 0] = [0, 3 / 2, 0, 0] := by
    rw [hannWindowed]
    show [(0 : ℝ) * hanning 4 0, 2 * hanning 4 1, 0 * hanning 4 2, 0 * hanning 4 3] = _
    rw [h0, h1, h2, h3]
    norm_num
  rw [periodogram_fft_vals]
  show some (dftPower (hannWindowed [0, 2, 0, 0]) 0 * 2.6666667 * 4) = _
  rw [hw, dftPower_zero_bin]
  norm_num

lemma pdC7_vals_subtract :
    (periodogram_fft pdC7 false).getD 0 none = some (9 / 16 * 2.6666667 * 4) := by
  obtain ⟨h0, h1, h2, h3⟩ := hanning_four
  show ((periodogram_fft_vals [0, 2, 0, 0] false).map some).getD 0 none = _
  have hm : meanL [0, 2, 0, 0] = 1 / 2 := by
    rw [meanL]; norm_num
  have hw : hannWindowed ([0, 2, 0, 0].map (fun v => v - meanL [0, 2, 0, 0])) =
      [0, 9 / 8, -(3 / 8), 0] := by
    rw [hannWindowed, hm]
    show [(0 - 1 / 2 : ℝ) * hanning 4 0, (2 - 1 / 2) * hanning 4 1,
      (0 - 1 / 2) * hanning 4 2, (0 - 1 / 2) * hanning 4 3] = _
    rw [h0, h1, h2, h3]
    norm_num
  rw [periodogram_fft_vals]
  show some (dftPower (hannWindowed ([0, 2, 0, 0].map
    (fun v => v - meanL [0, 2, 0, 0]))) 0 * 2.6666667 * 4) = _
  rw [hw, dftPower_zero_bin]
  norm_num

/-- C7: `periodogram_fft` called without `retain_dc` does NOT subtract the
sample mean: the source's default is `retain_dc = True`, so the default call
equals the `retain_dc = true` call and differs from the mean-subtracting
`retain_dc = false` call (shown at data `[0, 2, 0, 0]`, whose DC bin is
`(3/2)² · 2.6666667 · 4` by default but `(3/4)² · 2.6666667 · 4` after mean
subtraction). -/
theorem periodogram_fft_default_keeps_dc :
    periodogram_fft pdC7 = periodogram_fft pdC7 true ∧
    (periodogram_fft pdC7).getD 0 none = some (9 / 4 * 2.6666667 * 4) ∧
    (periodogram_fft pdC7 false).getD 0 none = some (9 / 16 * 2.6666667 * 4) ∧
    periodogram_fft pdC7 ≠ periodogram_fft pdC7 false := by
  refine ⟨rfl, pdC7_vals_retain, pdC7_vals_subtract, fun h => ?_⟩
  have := pdC7_vals_retain
  rw [h, pdC7_vals_subtract] at this
  have hval : (9 / 16 * 2.6666667 * 4 : ℝ) = 9 / 4 * 2.6666667 * 4 :=
    Option.some.inj this
  norm_num at hval

/-! ### powerspec error signalling and aggregation at concrete inputs -/

lemma NsegOf_16_16 : NsegOf 16 16 = 1 := by
  rw [NsegOf]
  norm_num

/-- C6: `powerspec` raises only for `Nfreq < 4`.  At `Nfreq = 16` on a
16-sample array only one segment fits (`Nseg = 1 < 2`), yet the call does not
signal an error: the source merely prints a diagnostic and proceeds with the
degenerate segmentation.  The claim that an error is signalled in that case
fails on the code. -/
theorem powerspec_error_cases :
    (powerspec (List.replicate 16 (some 0)) 3).isOk = false ∧
    NsegOf 16 16 < 2 ∧
    (powerspec (List.replicate 16 (some 0)) 16).isOk = true := by
  refine ⟨rfl, ?_, rfl⟩
  rw [NsegOf_16_16]
  norm_num

/-- Failing input for the Welch aggregation divisor: with `Nfreq = 4` two
segments are cut, `data[0:3]` and `data[2:5]`, and the second contains a NaN. -/
def pdC5 : List (Option ℝ) := [some 0, some 1, some 0, some 0, none, some 0]

lemma NsegOf_6_4 : NsegOf 6 4 = 2 := by
  rw [NsegOf]
  norm_num

lemma xsep_6_4 : xsepOf 6 4 = 1.999998 := by
  rw [xsepOf, NsegOf_6_4]
  norm_num

lemma round_xsep_6_4 : round (1.999998 : ℝ) = 2 := by
  rw [round_eq]
  norm_num

lemma segs_C5 : powersSegments pdC5 4 =
    [[some 0, some 1, some 0], [some 0, some 0, none]] := by
  have hlen : pdC5.length = 6 := rfl
  rw [powersSegments, hlen, NsegOf_6_4, xsep_6_4]
  rw [show ((2 : ℤ).toNat) = 2 from rfl]
  rw [show List.range 2 = [0, 1] from rfl]
  rw [List.map_cons, List.map_cons, List.map_nil]
  rw [show ((0 : ℕ) : ℝ) * 1.999998 = 0 by norm_num]
  rw [show ((1 : ℕ) : ℝ) * 1.999998 = 1.999998 by norm_num]
  rw [round_zero, round_xsep_6_4]
  rfl

lemma dftPower_single (a : ℝ) (k : ℕ) : dftPower [0, a, 0] k = a ^ 2 := by
  rw [dftPower]
  rw [show [(0 : ℝ), a, 0].length = 3 from rfl]
  rw [Finset.sum_range_succ, Finset.sum_range_succ, Finset.sum_range_one]
  rw [show ([(0 : ℝ), a, 0].getD 0 0) = 0 from rfl,
    show ([(0 : ℝ), a, 0].getD 1 0) = a from rfl,
    show ([(0 : ℝ), a, 0].getD 2 0) = 0 from rfl]
  simp only [Complex.ofReal_zero, zero_mul, add_zero, zero_add]
  rw [show (-(2 * (Real.pi : ℂ) * Complex.I) * (1 : ℕ) * (k : ℕ) / (3 : ℕ)) =
    ((-(2 * Real.pi * k) / 3 : ℝ) : ℂ) * Complex.I by push_cast; ring]
  rw [map_mul Complex.normSq, Complex.normSq_ofReal]
  rw [← Complex.sq_abs, Complex.abs_exp_ofReal_mul_I]
  ring

lemma pvals_seg0 : periodogram_fft_vals [0, 1, 0] false =
    [8888889 / 2500000, 8888889 / 2500000, 8888889 / 2500000] := by
  obtain ⟨h0, h1, h2⟩ := hanning_three
  have hm : meanL [0, 1, 0] = 1 / 3 := by
    rw [meanL]
    norm_num
  have hw : hannWindowed ([0, 1, 0].map (fun v => v - meanL [0, 1, 0])) =
      [0, 2 / 3, 0] := by
    rw [hannWindowed, hm]
    show [((0 : ℝ) - 1 / 3) * hanning 3 0, (1 - 1 / 3) * hanning 3 1,
      (0 - 1 / 3) * hanning 3 2] = _
    rw [h0, h1, h2]
    norm_num
  rw [periodogram_fft_vals]
  rw [show (if false then [(0 : ℝ), 1, 0]
    else [(0 : ℝ), 1, 0].map (fun v => v - meanL [0, 1, 0])) =
    [(0 : ℝ), 1, 0].map (fun v => v - meanL [0, 1, 0]) from rfl]
  rw [hw]
  rw [show List.range [(0 : ℝ), 1, 0].length = [0, 1, 2] from rfl]
  rw [List.map_cons, List.map_cons, List.map_cons, List.map_nil]
  rw [dftPower_single, dftPower_single, dftPower_single]
  norm_num

lemma pfft_seg0 : periodogram_fft [some 0, some 1, some 0] false =
    [some (8888889 / 2500000), some (8888889 / 2500000), some (8888889 / 2500000)] := by
  show (periodogram_fft_vals [0, 1, 0] false).map some = _
  rw [pvals_seg0]
  rfl

lemma spectraC5_eq : powerspecSpectra pdC5 4 false =
    [[some (8888889 / 2500000), some (8888889 / 2500000), some (8888889 / 2500000)],
      [none, none, none]] := by
  rw [powerspecSpectra, segs_C5, List.map_cons, List.map_cons, List.map_nil,
    pfft_seg0]
  rfl

/-- C5: on `pdC5` with `Nfreq = 4`, the segment containing a NaN is excluded
from the sum and the call returns normally, but the divisor is the TOTAL
segment count (2), not the number of valid segments (1): each returned bin is
`p/2` where the spec's valid-count average would return `p`. -/
theorem powerspec_divides_by_total_count :
    powerspec pdC5 4 = Except.ok [some (8888889 / 5000000),
      some (8888889 / 5000000), some (8888889 / 5000000)] ∧
    ((powerspecSpectra pdC5 4 false).filter
      (fun sp => (sp.getD 0 none).isSome)).length = 1 ∧
    welchValidAverage (powerspecSpectra pdC5 4 false) 3 =
      [some (8888889 / 2500000), some (8888889 / 2500000), some (8888889 / 2500000)] ∧
    (8888889 / 5000000 : ℝ) ≠ 8888889 / 2500000 := by
  have hfil : (powerspecSpectra pdC5 4 false).filter
      (fun sp => (sp.getD 0 none).isSome) =
      [[some (8888889 / 2500000), some (8888889 / 2500000),
        some (8888889 / 2500000)]] := by
    rw [spectraC5_eq]
    rfl
  have hsum : sumSpectra [[some (8888889 / 2500000), some (8888889 / 2500000),
      some (8888889 / 2500000)]] 3 =
      [some (8888889 / 2500000 + 0), some (8888889 / 2500000 + 0),
        some (8888889 / 2500000 + 0)] := by
    rw [sumSpectra]
    rfl
  refine ⟨?_, ?_, ?_, by norm_num⟩
  · rw [powerspec, if_neg (by norm_num)]
    rw [powerspecPower, hfil, hsum, spectraC5_eq]
    rw [show ([[some ((8888889 : ℝ) / 2500000), some (8888889 / 2500000),
      some (8888889 / 2500000)], [none, none, none]].length) = 2 from rfl]
    rw [List.map_cons, List.map_cons, List.map_cons, List.map_nil]
    rw [show (Option.map (fun v => v / ((2 : ℕ) : ℝ))
      (some (8888889 / 2500000 + 0))) = some ((8888889 / 2500000 + 0) / 2) by
        rw [Option.map_some']; norm_num]
    norm_num
  · rw [hfil]
    rfl
  · rw [welchValidAverage, hfil, hsum]
    rw [show ([[some ((8888889 : ℝ) / 2500000), some (8888889 / 2500000),
      some (8888889 / 2500000)]].length) = 1 from rfl]
    rw [List.map_cons, List.map_cons, List.map_cons, List.map_nil]
    rw [show (Option.map (fun v => v / ((1 : ℕ) : ℝ))
      (some (8888889 / 2500000 + 0))) = some ((8888889 / 2500000 + 0) / 1) by
        rw [Option.map_some']; norm_num]
    norm_num

/-! ## fit_spherical_wave (src/fit_spherical_wave.py), linear mode

`aperture = np.where(wfe.imag < 1.)`; coordinate maps `xp[i][j] = i`,
`yp[i][j] = j`; each basis map is centred to zero mean over the aperture and
divided by the root of its aperture sum of squares; the defocus basis is
`b1**2 + b2**2`, built from the already-centred bases.  The projection lines
are `result += b_k * wfe_aperture * b_k[aperture].sum()` — they multiply by
the aperture SUM of the centred basis (which is exactly zero), not by the
inner product `(wfe[aperture] * b_k[aperture]).sum()`, so every correction
term vanishes and the returned surface is the piston map.  (`wfe_aperture` is
the second positional parameter; the call site in psd2wfe omits it, so any
value is equivalent here.) -/

/-- Aperture of a complex wavefront map: samples with imaginary part `< 1`. -/
def apertureOf (Nx Ny : ℕ) (wfe : ℕ → ℕ → ℂ) : Finset (ℕ × ℕ) :=
  ((range Nx) ×ˢ (range Ny)).filter (fun p => (wfe p.1 p.2).im < 1)

/-- `xp = np.outer(np.arange(Nx), np.ones(Ny))`. -/
def xpArr : ℕ → ℕ → ℝ := fun i _ => (i : ℝ)

/-- `yp = np.outer(np.ones(Nx), np.arange(Ny))`. -/
def ypArr : ℕ → ℕ → ℝ := fun _ j => (j : ℝ)

/-- Aperture mean of a real map. -/
def ameanR (A : Finset (ℕ × ℕ)) (f : ℕ → ℕ → ℝ) : ℝ :=
  (∑ p ∈ A, f p.1 p.2) / A.card

/-- Aperture mean of a complex map (`wfe[aperture].mean()`). -/
def ameanC (A : Finset (ℕ × ℕ)) (w : ℕ → ℕ → ℂ) : ℂ :=
  (∑ p ∈ A, w p.1 p.2) / (A.card : ℂ)

/-- Centre a basis map to zero mean over the aperture and normalise by the
root of its aperture sum of squares (`b -= b[aperture].mean();
b /= np.sqrt(np.square(b[aperture]).sum())`). -/
def centerNorm (A : Finset (ℕ × ℕ)) (f : ℕ → ℕ → ℝ) : ℕ → ℕ → ℝ :=
  fun i j => (f i j - ameanR A f) /
    Real.sqrt (∑ p ∈ A, (f p.1 p.2 - ameanR A f) ^ 2)

/-- Tip basis `b1`. -/
def fitB1 (Nx Ny : ℕ) (wfe : ℕ → ℕ → ℂ) : ℕ → ℕ → ℝ :=
  centerNorm (apertureOf Nx Ny wfe) xpArr

/-- Tilt basis `b2`. -/
def fitB2 (Nx Ny : ℕ) (wfe : ℕ → ℕ → ℂ) : ℕ → ℕ → ℝ :=
  centerNorm (apertureOf Nx Ny wfe) ypArr

/-- Defocus basis `b3 = np.square(b1) + np.square(b2)`, centred and
normalised. -/
def fitB3 (Nx Ny : ℕ) (wfe : ℕ → ℕ → ℂ) : ℕ → ℕ → ℝ :=
  centerNorm (apertureOf Nx Ny wfe)
    (fun i j => fitB1 Nx Ny wfe i j ^ 2 + fitB2 Nx Ny wfe i j ^ 2)

/-- `fit_spherical_wave(wfe, wfe_aperture, linear=True)`: the piston map plus
the three (vanishing) correction terms
`b_k * wfe_aperture * b_k[aperture].sum()`. -/
def fit_spherical_wave (Nx Ny : ℕ) (wfe wfe_aperture : ℕ → ℕ → ℂ) :
    ℕ → ℕ → ℂ :=
  fun i j =>
    ameanC (apertureOf Nx Ny wfe) wfe +
    (fitB1 Nx Ny wfe i j : ℂ) * wfe_aperture i j *
      ((∑ p ∈ apertureOf Nx Ny wfe, fitB1 Nx Ny wfe p.1 p.2 : ℝ) : ℂ) +
    (fitB2 Nx Ny wfe i j : ℂ) * wfe_aperture i j *
      ((∑ p ∈ apertureOf Nx Ny wfe, fitB2 Nx Ny wfe p.1 p.2 : ℝ) : ℂ) +
    (fitB3 Nx Ny wfe i j : ℂ) * wfe_aperture i j *
      ((∑ p ∈ apertureOf Nx Ny wfe, fitB3 Nx Ny wfe p.1 p.2 : ℝ) : ℂ)

/-- The aperture sum of any centred-and-normalised basis map is exactly 0. -/
lemma sum_centerNorm (A : Finset (ℕ × ℕ)) (f : ℕ → ℕ → ℝ) :
    (∑ p ∈ A, centerNorm A f p.1 p.2) = 0 := by
  unfold centerNorm
  rw [← Finset.sum_div]
  rcases Finset.eq_empty_or_nonempty A with h | h
  · rw [h]
    simp
  · have hcard : (A.card : ℝ) ≠ 0 := by
      exact_mod_cast Finset.card_ne_zero_of_mem h.choose_spec
    rw [Finset.sum_sub_distrib, Finset.sum_const, nsmul_eq_mul, ameanR]
    field_simp

lemma fit_eq_piston (Nx Ny : ℕ) (wfe W : ℕ → ℕ → ℂ) (i j : ℕ) :
    fit_spherical_wave Nx Ny wfe W i j = ameanC (apertureOf Nx Ny wfe) wfe := by
  rw [fit_spherical_wave]
  rw [show (∑ p ∈ apertureOf Nx Ny wfe, fitB1 Nx Ny wfe p.1 p.2) = 0 from
    sum_centerNorm _ _]
  rw [show (∑ p ∈ apertureOf Nx Ny wfe, fitB2 Nx Ny wfe p.1 p.2) = 0 from
    sum_centerNorm _ _]
  rw [show (∑ p ∈ apertureOf Nx Ny wfe, fitB3 Nx Ny wfe p.1 p.2) = 0 from
    sum_centerNorm _ _]
  push_cast
  ring

/-- Amended C4: the `linear` fit of `fit_spherical_wave` degenerates to the
piston (aperture-mean) map, because each projection line multiplies by the
aperture sum of the centred basis, which is exactly zero.  Consequently the
residual's piston projection (its aperture sum) vanishes, but nothing removes
the tip/tilt/defocus components. -/
theorem fit_spherical_wave_piston_residual (Nx Ny : ℕ) (wfe W : ℕ → ℕ → ℂ) :
    (∀ i j, fit_spherical_wave Nx Ny wfe W i j =
      ameanC (apertureOf Nx Ny wfe) wfe) ∧
    (∑ p ∈ apertureOf Nx Ny wfe,
      (wfe p.1 p.2 - fit_spherical_wave Nx Ny wfe W p.1 p.2)) = 0 := by
  refine ⟨fit_eq_piston Nx Ny wfe W, ?_⟩
  rw [Finset.sum_congr rfl fun p _ => by rw [fit_eq_piston Nx Ny wfe W p.1 p.2]]
  rw [Finset.sum_sub_distrib, Finset.sum_const, nsmul_eq_mul, ameanC]
  rcases Finset.eq_empty_or_nonempty (apertureOf Nx Ny wfe) with h | h
  · rw [h]
    simp
  · have hcard : ((apertureOf Nx Ny wfe).card : ℂ) ≠ 0 := by
      exact_mod_cast Finset.card_ne_zero_of_mem h.choose_spec
    field_simp

/-- The 2×2 pure-tip counterexample map `[[0, 0], [1, 1]]` (row index `i` is
the `x` coordinate), fully transmissive aperture. -/
def wfeC4 : ℕ → ℕ → ℂ := fun i _ => if i = 1 then 1 else 0

lemma apertureC4 : apertureOf 2 2 wfeC4 = (range 2) ×ˢ (range 2) := by
  rw [apertureOf]
  refine Finset.filter_true_of_mem fun p _ => ?_
  rw [wfeC4]
  rcases eq_or_ne p.1 1 with h | h <;> simp [h]

lemma ameanR_xp_C4 : ameanR ((range 2) ×ˢ (range 2)) xpArr = 1 / 2 := by
  rw [ameanR]
  rw [Finset.sum_product]
  rw [Finset.sum_range_succ, Finset.sum_range_succ, Finset.sum_range_zero]
  rw [Finset.sum_range_succ, Finset.sum_range_succ, Finset.sum_range_zero]
  rw [Finset.card_product, Finset.card_range]
  norm_num [xpArr]

lemma fitB1_C4 (i j : ℕ) : fitB1 2 2 wfeC4 i j = (i : ℝ) - 1 / 2 := by
  rw [fitB1, centerNorm, apertureC4, ameanR_xp_C4]
  have hs : (∑ p ∈ (range 2) ×ˢ (range 2), (xpArr p.1 p.2 - 1 / 2) ^ 2) = 1 := by
    rw [Finset.sum_product]
    rw [Finset.sum_range_succ, Finset.sum_range_succ, Finset.sum_range_zero]
    rw [Finset.sum_range_succ, Finset.sum_range_succ, Finset.sum_range_zero]
    norm_num [xpArr]
  rw [hs, Real.sqrt_one, div_one, xpArr]

lemma ameanC_C4 : ameanC ((range 2) ×ˢ (range 2)) wfeC4 = 1 / 2 := by
  rw [ameanC]
  rw [Finset.sum_product]
  rw [Finset.sum_range_succ, Finset.sum_range_succ, Finset.sum_range_zero]
  rw [Finset.sum_range_succ, Finset.sum_range_succ, Finset.sum_range_zero]
  rw [Finset.card_product, Finset.card_range]
  norm_num [wfeC4]

/-- C4 counterexample: for the pure-tip map `wfeC4` over its (full, nonempty)
aperture, the residual after subtracting the linear-mode fit has projection
exactly `1` (not `≈ 0`) onto the code's own tip basis `b1`. -/
theorem fit_residual_tip_projection_ne_zero :
    (∑ p ∈ apertureOf 2 2 wfeC4,
      (wfeC4 p.1 p.2 - fit_spherical_wave 2 2 wfeC4 wfeC4 p.1 p.2) *
        ((fitB1 2 2 wfeC4 p.1 p.2 : ℝ) : ℂ)) = 1 ∧
    (apertureOf 2 2 wfeC4).Nonempty ∧ (1 : ℂ) ≠ 0 := by
  refine ⟨?_, ?_, one_ne_zero⟩
  · rw [Finset.sum_congr rfl fun p _ => by
      rw [fit_eq_piston 2 2 wfeC4 wfeC4 p.1 p.2, fitB1_C4, apertureC4, ameanC_C4]]
    rw [apertureC4]
    rw [Finset.sum_product]
    rw [Finset.sum_range_succ, Finset.sum_range_succ, Finset.sum_range_zero]
    rw [Finset.sum_range_succ, Finset.sum_range_succ, Finset.sum_range_zero]
    norm_num [wfeC4]
  · rw [apertureC4]
    exact ⟨(0, 0), by simp⟩

/-! ## periodogram_fft 2D branch and powerspec2d (src/powerspec2d.py)

The 2D branch of `periodogram_fft` windows by
`np.hanning(Nx) * np.hanning(Ny)[:, np.newaxis]` (the first factor runs along
the last axis, the second along the first axis; the sub-images here are
square) and scales by `7.1111111 * Nx * Ny`.  `powerspec2d` cuts overlapping
square sub-images with the same brick-overlap rule as `powerspec`
(Python slices again keep `Nfreq - 1` samples per axis), computes a
periodogram per sub-image, and `np.nanmean`s them per bin, so a sub-image
containing NaN is ignored bin-by-bin. -/

/-- Entry `(u, v)` of a real matrix (rows of possibly ragged lists, default 0). -/
def getR2 (x : List (List ℝ)) (u v : ℕ) : ℝ := (x.getD u []).getD v 0

/-- Entry `(u, v)` of a NaN-aware matrix (default NaN). -/
def getM2 (x : List (List (Option ℝ))) (u v : ℕ) : Option ℝ :=
  (x.getD u []).getD v none

/-- Mean over all entries of a 2D array (`data.mean()`). -/
def mean2 (x : List (List ℝ)) : ℝ :=
  (x.map List.sum).sum / (x.length * (x.getD 0 []).length)

/-- `data - data.mean()` elementwise. -/
def subMean2 (x : List (List ℝ)) : List (List ℝ) :=
  x.map (List.map (fun v => v - mean2 x))

/-- `data_corrected * np.hanning(Nx) * np.hanning(Ny)[:, np.newaxis]`:
entry `(i, j)` is scaled by `hanning Nx j * hanning Ny i`
(first window along the last axis, second along the first; the arrays fed here
are square so `Nx = Ny`). -/
def hannWindowed2 (x : List (List ℝ)) : List (List ℝ) :=
  (List.range x.length).map (fun i : ℕ =>
    (List.range (x.getD 0 []).length).map (fun j : ℕ =>
      getR2 x i j * hanning x.length j * hanning (x.getD 0 []).length i))

/-- Squared magnitude of bin `(u, v)` of `np.fft.fft2` of a real matrix. -/
def dft2Power (x : List (List ℝ)) (u v : ℕ) : ℝ :=
  Complex.normSq (∑ a ∈ Finset.range x.length, ∑ b ∈ Finset.range (x.getD 0 []).length,
    (getR2 x a b : ℂ) * Complex.exp (-(2 * Real.pi * Complex.I) *
      ((a : ℕ) * u / x.length + (b : ℕ) * v / (x.getD 0 []).length)))

/-- The 2D branch of `periodogram_fft` on finite data. -/
def periodogram_fft2_vals (data : List (List ℝ)) (retain_dc : Bool) :
    List (List ℝ) :=
  (List.range data.length).map (fun u : ℕ =>
    (List.range (data.getD 0 []).length).map (fun v : ℕ =>
      dft2Power (hannWindowed2 (if retain_dc then data else subMean2 data)) u v *
        7.1111111 * data.length * (data.getD 0 []).length))

/-- `periodogram_fft` on a 2D sub-image with NaN-awareness: one NaN poisons
every bin (the mean and every DFT bin sum over all samples). -/
def periodogram_fft2 (data : List (List (Option ℝ))) (retain_dc : Bool := true) :
    List (List (Option ℝ)) :=
  if data.any (fun row => row.any Option.isNone) then
    data.map (fun row => row.map (fun _ => none))
  else
    (periodogram_fft2_vals (data.map (List.map (fun v => v.getD 0)))
      retain_dc).map (List.map some)

/-- Sub-image `(i, j)` of `powerspec2d`: rows `x0 : x0 + Nfreq - 1`, columns
`y0 : y0 + Nfreq - 1` (Python slices, `Nfreq - 1` samples each). -/
def powerspec2dSeg (data : List (List (Option ℝ))) (Nfreq : ℕ) (i j : ℕ) :
    List (List (Option ℝ)) :=
  ((data.drop (round ((i : ℝ) * xsepOf data.length Nfreq)).toNat).take
      (Nfreq - 1)).map
    (fun row => (row.drop (round ((j : ℝ) *
      xsepOf (data.getD 0 []).length Nfreq)).toNat).take (Nfreq - 1))

/-- All sub-image periodograms of `powerspec2d`, row-major. -/
def powerspec2dSegSpectra (data : List (List (Option ℝ))) (Nfreq : ℕ)
    (retain_dc : Bool) : List (List (List (Option ℝ))) :=
  ((List.range (NsegOf data.length Nfreq).toNat).map (fun i : ℕ =>
    (List.range (NsegOf (data.getD 0 []).length Nfreq).toNat).map (fun j : ℕ =>
      periodogram_fft2 (powerspec2dSeg data Nfreq i j) retain_dc))).flatten

/-- `np.nanmean` over a list of embedded IEEE values: the mean of the finite
entries, NaN when there are none. -/
def nanmeanOpt (xs : List (Option ℝ)) : Option ℝ :=
  match xs.filterMap id with
  | [] => none
  | y :: ys => some ((y :: ys).sum / (y :: ys).length)

/-- The averaged PSD of `powerspec2d`
(`power = np.nanmean(np.nanmean(spectra, ...))` per bin over the sub-images). -/
def powerspec2dPower (data : List (List (Option ℝ))) (Nfreq : ℕ)
    (retain_dc : Bool) : List (List (Option ℝ)) :=
  (List.range (Nfreq - 1)).map (fun u : ℕ =>
    (List.range (Nfreq - 1)).map (fun v : ℕ =>
      nanmeanOpt ((powerspec2dSegSpectra data Nfreq retain_dc).map
        (fun sp => getM2 sp u v))))

/-! ## rmsripple (src/rmsripple.py)

Aperture-mask the real part (`NaN` where `imag > 1`), run `powerspec2d` with
sub-window `Npix = ceil(ripple_period/dx)` (forced to at least 4 — the IDL
clamp `round(Nfreq[0]) > 4` in powerspec2d), zero PSD bins with `k < kmin` or
`k > kmax`, set the DC bin to NaN, halve the PSD if `surf`, and return
`sqrt(nanmean(psd)) * lam`.  The `k` grid is a caller-supplied argument in the
translated signature. -/

/-- `wfe_real` with NaN outside the aperture (`wfe.imag > 1.0`). -/
def rippleMask (wfe : List (List ℂ)) : List (List (Option ℝ)) :=
  wfe.map (List.map (fun z => if 1 < z.im then none else some z.re))

/-- The PSD used by `rmsripple`. -/
def ripplePsd (wfe : List (List ℂ)) (ripple_period dx : ℝ) :
    List (List (Option ℝ)) :=
  powerspec2dPower (rippleMask wfe) (max (⌈ripple_period / dx⌉.toNat) 4) false

/-- `psd[np.where(k < kmin)] = 0; psd[np.where(k > kmax)] = 0` (assignment
overwrites NaN entries with 0 as well). -/
def rippleFiltered (psd : List (List (Option ℝ))) (k : List (List ℝ))
    (kmin kmax : ℝ) : List (List (Option ℝ)) :=
  (List.range psd.length).map (fun u : ℕ =>
    (List.range ((psd.getD u []).length)).map (fun v : ℕ =>
      if getR2 k u v < kmin ∨ kmax < getR2 k u v then some 0
      else getM2 psd u v))

/-- `psd[0, 0] = np.nan`. -/
def rippleDC (psd : List (List (Option ℝ))) : List (List (Option ℝ)) :=
  (List.range psd.length).map (fun u : ℕ =>
    (List.range ((psd.getD u []).length)).map (fun v : ℕ =>
      if u = 0 ∧ v = 0 then none else getM2 psd u v))

/-- `rmsripple(wfe, ripple_period, ripple_bandwidth, k, dx, lam, surf)`:
NaN (`none`) when every PSD bin is NaN. -/
def rmsripple (wfe : List (List ℂ)) (ripple_period ripple_bandwidth : ℝ)
    (k : List (List ℝ)) (dx : ℝ := 1) (lam : ℝ := 1) (surf : Bool := false) :
    Option ℝ :=
  (nanmeanOpt (if surf then
      ((rippleDC (rippleFiltered (ripplePsd wfe ripple_period dx) k
          ripple_period⁻¹ (ripple_bandwidth * ripple_period⁻¹))).map
        (List.map (Option.map (fun x => x / 2)))).flatten
    else
      (rippleDC (rippleFiltered (ripplePsd wfe ripple_period dx) k
        ripple_period⁻¹ (ripple_bandwidth * ripple_period⁻¹))).flatten)).map
    (fun m => Real.sqrt m * lam)

lemma filterMap_id_map_optionMap (f : ℝ → ℝ) (xs : List (Option ℝ)) :
    (xs.map (Option.map f)).filterMap id = (xs.filterMap id).map f := by
  induction xs with
  | nil => rfl
  | cons a t ih =>
      cases a <;> simp [List.filterMap_cons, ih]

lemma sum_map_div_two (l : List ℝ) :
    (l.map (fun x => x / 2)).sum = l.sum / 2 := by
  induction l with
  | nil => simp
  | cons a t ih =>
      rw [List.map_cons, List.sum_cons, List.sum_cons, ih]
      ring

lemma nanmeanOpt_map_div_two (xs : List (Option ℝ)) :
    nanmeanOpt (xs.map (Option.map (fun x => x / 2))) =
      (nanmeanOpt xs).map (fun m => m / 2) := by
  rw [nanmeanOpt, nanmeanOpt, filterMap_id_map_optionMap]
  cases h : xs.filterMap id with
  | nil => rfl
  | cons y ys =>
      rw [List.map_cons]
      have hs : ((y / 2) :: ys.map (fun x => x / 2)).sum = ((y :: ys).sum) / 2 := by
        rw [List.sum_cons, List.sum_cons, sum_map_div_two]
        ring
      have hl : ((y / 2) :: ys.map (fun x => x / 2)).length = (y :: ys).length := by
        rw [List.length_cons, List.length_cons, List.length_map]
      show some ((y / 2 :: ys.map (fun x => x / 2)).sum /
          ((y / 2 :: ys.map (fun x => x / 2)).length : ℝ)) =
        some ((y :: ys).sum / ((y :: ys).length : ℝ) / 2)
      rw [hs, hl, div_right_comm]

lemma sqrt_half_mul (m lam : ℝ) :
    Real.sqrt (m / 2) * lam = Real.sqrt m * lam / Real.sqrt 2 := by
  rcases le_or_lt 0 m with hm | hm
  · rw [Real.sqrt_div hm 2]
    ring
  · rw [show Real.sqrt (m / 2) = 0 from
      Real.sqrt_eq_zero_of_nonpos (by linarith),
      show Real.sqrt m = 0 from Real.sqrt_eq_zero_of_nonpos hm.le]
    ring

lemma rmsripple_surf_core (P : List (List (Option ℝ))) (lam : ℝ) :
    (nanmeanOpt ((P.map (List.map (Option.map (fun x => x / 2)))).flatten)).map
      (fun m => Real.sqrt m * lam) =
    ((nanmeanOpt P.flatten).map (fun m => Real.sqrt m * lam)).map
      (fun r => r / Real.sqrt 2) := by
  have hfl : (P.map (List.map (Option.map (fun x => x / 2)))).flatten =
      P.flatten.map (Option.map (fun x => x / 2)) := by
    rw [List.map_flatten]
  rw [hfl, nanmeanOpt_map_div_two]
  cases nanmeanOpt P.flatten with
  | none => rfl
  | some m =>
      show some (Real.sqrt (m / 2) * lam) = some (Real.sqrt m * lam / Real.sqrt 2)
      rw [sqrt_half_mul]

/-- Amended C8: `surf` halves the PSD before the square root, so
`band_limited_ripple` with `surf` set returns the unset value divided by
`sqrt 2`, not by 2. -/
theorem rmsripple_surf_div_sqrt_two (wfe : List (List ℂ))
    (ripple_period ripple_bandwidth : ℝ) (k : List (List ℝ)) (dx lam : ℝ) :
    rmsripple wfe ripple_period ripple_bandwidth k dx lam true =
      (rmsripple wfe ripple_period ripple_bandwidth k dx lam false).map
        (fun r => r / Real.sqrt 2) := by
  rw [rmsripple, rmsripple]
  rw [if_pos rfl, if_neg (by simp)]
  exact rmsripple_surf_core _ lam

/-! ### Concrete rmsripple evaluation (6×6 map, impulse at (1,1)) -/

/-- 6×6 wavefront with `1` at `(1, 1)`, zero imaginary part everywhere. -/
def wfeC8 : List (List ℂ) :=
  [[0, 0, 0, 0, 0, 0], [0, 1, 0, 0, 0, 0], [0, 0, 0, 0, 0, 0],
   [0, 0, 0, 0, 0, 0], [0, 0, 0, 0, 0, 0], [0, 0, 0, 0, 0, 0]]

/-- A 3×3 wavenumber grid lying inside the pass band `[1/4, 2/4]`. -/
def kC8 : List (List ℝ) :=
  [[0.3, 0.3, 0.3], [0.3, 0.3, 0.3], [0.3, 0.3, 0.3]]

/-- The masked real part of `wfeC8`. -/
def mC8 : List (List (Option ℝ)) :=
  [[some 0, some 0, some 0, some 0, some 0, some 0],
   [some 0, some 1, some 0, some 0, some 0, some 0],
   [some 0, some 0, some 0, some 0, some 0, some 0],
   [some 0, some 0, some 0, some 0, some 0, some 0],
   [some 0, some 0, some 0, some 0, some 0, some 0],
   [some 0, some 0, some 0, some 0, some 0, some 0]]

lemma maskC8 : rippleMask wfeC8 = mC8 := by
  have hz : (if 1 < (0 : ℂ).im then (none : Option ℝ) else some (0 : ℂ).re) =
      some 0 := by norm_num
  have ho : (if 1 < (1 : ℂ).im then (none : Option ℝ) else some (1 : ℂ).re) =
      some 1 := by norm_num
  rw [rippleMask, wfeC8]
  simp only [List.map_cons, List.map_nil]
  rw [hz, ho, mC8]

/-- The impulse sub-image (rows 0–2, cols 0–2). -/
def sImpC8 : List (List (Option ℝ)) :=
  [[some 0, some 0, some 0], [some 0, some 1, some 0], [some 0, some 0, some 0]]

/-- An all-zero sub-image. -/
def sZeroC8 : List (List (Option ℝ)) :=
  [[some 0, some 0, some 0], [some 0, some 0, some 0], [some 0, some 0, some 0]]

lemma segC8_00 : powerspec2dSeg mC8 4 0 0 = sImpC8 := by
  rw [powerspec2dSeg]
  rw [show mC8.length = 6 from rfl, show (mC8.getD 0 []).length = 6 from rfl,
    xsep_6_4]
  rw [show ((0 : ℕ) : ℝ) * 1.999998 = 0 by norm_num, round_zero]
  rfl

lemma segC8_01 : powerspec2dSeg mC8 4 0 1 = sZeroC8 := by
  rw [powerspec2dSeg]
  rw [show mC8.length = 6 from rfl, show (mC8.getD 0 []).length = 6 from rfl,
    xsep_6_4]
  rw [show ((0 : ℕ) : ℝ) * 1.999998 = 0 by norm_num, round_zero]
  rw [show ((1 : ℕ) : ℝ) * 1.999998 = 1.999998 by norm_num, round_xsep_6_4]
  rfl

lemma segC8_10 : powerspec2dSeg mC8 4 1 0 = sZeroC8 := by
  rw [powerspec2dSeg]
  rw [show mC8.length = 6 from rfl, show (mC8.getD 0 []).length = 6 from rfl,
    xsep_6_4]
  rw [show ((1 : ℕ) : ℝ) * 1.999998 = 1.999998 by norm_num, round_xsep_6_4]
  rw [show ((0 : ℕ) : ℝ) * 1.999998 = 0 by norm_num, round_zero]
  rfl

lemma segC8_11 : powerspec2dSeg mC8 4 1 1 = sZeroC8 := by
  rw [powerspec2dSeg]
  rw [show mC8.length = 6 from rfl, show (mC8.getD 0 []).length = 6 from rfl,
    xsep_6_4]
  rw [show ((1 : ℕ) : ℝ) * 1.999998 = 1.999998 by norm_num, round_xsep_6_4]
  rfl

lemma dft2Power_center (x : ℝ) (u v : ℕ) :
    dft2Power [[0, 0, 0], [0, x, 0], [0, 0, 0]] u v = x ^ 2 := by
  rw [dft2Power]
  rw [show [[(0 : ℝ), 0, 0], [0, x, 0], [0, 0, 0]].length = 3 from rfl]
  rw [show ([[(0 : ℝ), 0, 0], [0, x, 0], [0, 0, 0]].getD 0 []).length = 3 from rfl]
  simp only [Finset.sum_range_succ, Finset.sum_range_zero]
  simp only [show getR2 [[(0 : ℝ), 0, 0], [0, x, 0], [0, 0, 0]] 0 0 = 0 from rfl,
    show getR2 [[(0 : ℝ), 0, 0], [0, x, 0], [0, 0, 0]] 0 1 = 0 from rfl,
    show getR2 [[(0 : ℝ), 0, 0], [0, x, 0], [0, 0, 0]] 0 2 = 0 from rfl,
    show getR2 [[(0 : ℝ), 0, 0], [0, x, 0], [0, 0, 0]] 1 0 = 0 from rfl,
    show getR2 [[(0 : ℝ), 0, 0], [0, x, 0], [0, 0, 0]] 1 1 = x from rfl,
    show getR2 [[(0 : ℝ), 0, 0], [0, x, 0], [0, 0, 0]] 1 2 = 0 from rfl,
    show getR2 [[(0 : ℝ), 0, 0], [0, x, 0], [0, 0, 0]] 2 0 = 0 from rfl,
    show getR2 [[(0 : ℝ), 0, 0], [0, x, 0], [0, 0, 0]] 2 1 = 0 from rfl,
    show getR2 [[(0 : ℝ), 0, 0], [0, x, 0], [0, 0, 0]] 2 2 = 0 from rfl]
  simp only [Complex.ofReal_zero, zero_mul, zero_add, add_zero]
  rw [map_mul Complex.normSq, Complex.normSq_ofReal]
  rw [show (-(2 * (Real.pi : ℂ) * Complex.I) *
      (((1 : ℕ) : ℂ) * (u : ℂ) / ((3 : ℕ) : ℂ) +
        ((1 : ℕ) : ℂ) * (v : ℂ) / ((3 : ℕ) : ℂ))) =
      ((-(2 * Real.pi * ((u : ℝ) / 3 + (v : ℝ) / 3)) : ℝ) : ℂ) * Complex.I by
    push_cast
    ring]
  rw [← Complex.sq_abs, Complex.abs_exp_ofReal_mul_I]
  ring

/-- The mean-subtracted impulse sub-image. -/
def subImpC8 : List (List ℝ) :=
  [[-(1/9), -(1/9), -(1/9)], [-(1/9), 8/9, -(1/9)], [-(1/9), -(1/9), -(1/9)]]

lemma mean2_imp : mean2 [[(0 : ℝ), 0, 0], [0, 1, 0], [0, 0, 0]] = 1 / 9 := by
  rw [mean2]
  rw [show ([[(0 : ℝ), 0, 0], [0, 1, 0], [0, 0, 0]].getD 0 []) = [0, 0, 0]
    from rfl]
  norm_num [List.sum_cons, List.sum_nil, List.map_cons, List.map_nil,
    List.length_cons, List.length_nil]

lemma subMean2_imp :
    subMean2 [[(0 : ℝ), 0, 0], [0, 1, 0], [0, 0, 0]] = subImpC8 := by
  rw [subMean2, mean2_imp, subImpC8]
  simp only [List.map_cons, List.map_nil]
  norm_num

lemma hannWin2_imp :
    hannWindowed2 subImpC8 = [[0, 0, 0], [0, 8/9, 0], [0, 0, 0]] := by
  obtain ⟨h30, h31, h32⟩ := hanning_three
  rw [hannWindowed2]
  rw [show subImpC8.length = 3 from rfl,
    show (subImpC8.getD 0 []).length = 3 from rfl]
  rw [show List.range 3 = [0, 1, 2] from rfl]
  simp only [List.map_cons, List.map_nil]
  simp only [show getR2 subImpC8 0 0 = -(1/9) from rfl,
    show getR2 subImpC8 0 1 = -(1/9) from rfl,
    show getR2 subImpC8 0 2 = -(1/9) from rfl,
    show getR2 subImpC8 1 0 = -(1/9) from rfl,
    show getR2 subImpC8 1 1 = 8/9 from rfl,
    show getR2 subImpC8 1 2 = -(1/9) from rfl,
    show getR2 subImpC8 2 0 = -(1/9) from rfl,
    show getR2 subImpC8 2 1 = -(1/9) from rfl,
    show getR2 subImpC8 2 2 = -(1/9) from rfl, h30, h31, h32]
  norm_num

lemma pfft2_vals_imp :
    periodogram_fft2_vals [[(0 : ℝ), 0, 0], [0, 1, 0], [0, 0, 0]] false =
      [[71111111/1406250, 71111111/1406250, 71111111/1406250],
       [71111111/1406250, 71111111/1406250, 71111111/1406250],
       [71111111/1406250, 71111111/1406250, 71111111/1406250]] := by
  rw [periodogram_fft2_vals]
  rw [show (if false then [[(0 : ℝ), 0, 0], [0, 1, 0], [0, 0, 0]]
      else subMean2 [[(0 : ℝ), 0, 0], [0, 1, 0], [0, 0, 0]]) =
    subMean2 [[(0 : ℝ), 0, 0], [0, 1, 0], [0, 0, 0]] from rfl]
  rw [subMean2_imp, hannWin2_imp]
  rw [show [[(0 : ℝ), 0, 0], [0, 1, 0], [0, 0, 0]].length = 3 from rfl,
    show ([[(0 : ℝ), 0, 0], [0, 1, 0], [0, 0, 0]].getD 0 []).length = 3 from rfl]
  rw [show List.range 3 = [0, 1, 2] from rfl]
  simp only [List.map_cons, List.map_nil]
  simp only [dft2Power_center]
  norm_num

lemma mean2_zero : mean2 [[(0 : ℝ), 0, 0], [0, 0, 0], [0, 0, 0]] = 0 := by
  rw [mean2]
  norm_num [List.sum_cons, List.sum_nil, List.map_cons, List.map_nil]

lemma subMean2_zero : subMean2 [[(0 : ℝ), 0, 0], [0, 0, 0], [0, 0, 0]] =
    [[(0 : ℝ), 0, 0], [0, 0, 0], [0, 0, 0]] := by
  rw [subMean2, mean2_zero]
  simp only [List.map_cons, List.map_nil]
  norm_num

lemma hannWin2_zero :
    hannWindowed2 [[(0 : ℝ), 0, 0], [0, 0, 0], [0, 0, 0]] =
      [[(0 : ℝ), 0, 0], [0, 0, 0], [0, 0, 0]] := by
  rw [hannWindowed2]
  rw [show [[(0 : ℝ), 0, 0], [0, 0, 0], [0, 0, 0]].length = 3 from rfl,
    show ([[(0 : ℝ), 0, 0], [0, 0, 0], [0, 0, 0]].getD 0 []).length = 3 from rfl]
  rw [show List.range 3 = [0, 1, 2] from rfl]
  simp only [List.map_cons, List.map_nil]
  simp only [show ∀ a b : ℕ,
    getR2 [[(0 : ℝ), 0, 0], [0, 0, 0], [0, 0, 0]] a b = 0 from fun a b => by
      rw [getR2]
      rcases a with _ | _ | _ | a <;> rcases b with _ | _ | _ | b <;> rfl]
  norm_num

lemma pfft2_vals_zero :
    periodogram_fft2_vals [[(0 : ℝ), 0, 0], [0, 0, 0], [0, 0, 0]] false =
      [[(0 : ℝ), 0, 0], [0, 0, 0], [0, 0, 0]] := by
  rw [periodogram_fft2_vals]
  rw [show (if false then [[(0 : ℝ), 0, 0], [0, 0, 0], [0, 0, 0]]
      else subMean2 [[(0 : ℝ), 0, 0], [0, 0, 0], [0, 0, 0]]) =
    subMean2 [[(0 : ℝ), 0, 0], [0, 0, 0], [0, 0, 0]] from rfl]
  rw [subMean2_zero, hannWin2_zero]
  rw [show [[(0 : ℝ), 0, 0], [0, 0, 0], [0, 0, 0]].length = 3 from rfl,
    show ([[(0 : ℝ), 0, 0], [0, 0, 0], [0, 0, 0]].getD 0 []).length = 3 from rfl]
  rw [show List.range 3 = [0, 1, 2] from rfl]
  simp only [List.map_cons, List.map_nil]
  simp only [dft2Power_center]
  norm_num

/-- Spectrum of the impulse sub-image: flat at `(8/9)² · 7.1111111 · 9`. -/
def specImpC8 : List (List (Option ℝ)) :=
  [[some (71111111/1406250), some (71111111/1406250), some (71111111/1406250)],
   [some (71111111/1406250), some (71111111/1406250), some (71111111/1406250)],
   [some (71111111/1406250), some (71111111/1406250), some (71111111/1406250)]]

/-- Spectrum of an all-zero sub-image. -/
def specZeroC8 : List (List (Option ℝ)) :=
  [[some 0, some 0, some 0], [some 0, some 0, some 0], [some 0, some 0, some 0]]

lemma pfft2_imp : periodogram_fft2 sImpC8 false = specImpC8 := by
  show (periodogram_fft2_vals [[(0 : ℝ), 0, 0], [0, 1, 0], [0, 0, 0]] false).map
    (List.map some) = specImpC8
  rw [pfft2_vals_imp]
  rfl

lemma pfft2_zero : periodogram_fft2 sZeroC8 false = specZeroC8 := by
  show (periodogram_fft2_vals [[(0 : ℝ), 0, 0], [0, 0, 0], [0, 0, 0]] false).map
    (List.map some) = specZeroC8
  rw [pfft2_vals_zero]
  rfl

lemma specsC8 : powerspec2dSegSpectra mC8 4 false =
    [specImpC8, specZeroC8, specZeroC8, specZeroC8] := by
  rw [powerspec2dSegSpectra]
  rw [show mC8.length = 6 from rfl, show (mC8.getD 0 []).length = 6 from rfl,
    NsegOf_6_4]
  rw [show ((2 : ℤ).toNat) = 2 from rfl, show List.range 2 = [0, 1] from rfl]
  simp only [List.map_cons, List.map_nil]
  rw [segC8_00, segC8_01, segC8_10, segC8_11, pfft2_imp]
  simp only [pfft2_zero]
  rfl

/-- The PSD realised by `powerspec2d` on `mC8`: every bin is the impulse power
averaged over the four sub-images. -/
def psdC8 : List (List (Option ℝ)) :=
  [[some (71111111/5625000), some (71111111/5625000), some (71111111/5625000)],
   [some (71111111/5625000), some (71111111/5625000), some (71111111/5625000)],
   [some (71111111/5625000), some (71111111/5625000), some (71111111/5625000)]]

lemma binC8 : ∀ u v : ℕ, u < 3 → v < 3 →
    nanmeanOpt [getM2 specImpC8 u v, getM2 specZeroC8 u v,
      getM2 specZeroC8 u v, getM2 specZeroC8 u v] =
      some (71111111/5625000) := by
  intro u v hu hv
  have h1 : getM2 specImpC8 u v = some (71111111/1406250) := by
    interval_cases u <;> interval_cases v <;> rfl
  have h0 : getM2 specZeroC8 u v = some 0 := by
    interval_cases u <;> interval_cases v <;> rfl
  rw [h1, h0]
  show some ((((71111111 : ℝ)/1406250) + (0 + (0 + (0 + 0)))) / ((4 : ℕ) : ℝ)) = _
  norm_num

lemma powerC8 : powerspec2dPower mC8 4 false = psdC8 := by
  rw [powerspec2dPower, specsC8]
  rw [show List.range (4 - 1) = [0, 1, 2] from rfl]
  simp only [List.map_cons, List.map_nil]
  rw [binC8 0 0 (by norm_num) (by norm_num), binC8 0 1 (by norm_num) (by norm_num),
    binC8 0 2 (by norm_num) (by norm_num), binC8 1 0 (by norm_num) (by norm_num),
    binC8 1 1 (by norm_num) (by norm_num), binC8 1 2 (by norm_num) (by norm_num),
    binC8 2 0 (by norm_num) (by norm_num), binC8 2 1 (by norm_num) (by norm_num),
    binC8 2 2 (by norm_num) (by norm_num)]
  rfl

lemma rippleC8_psd : ripplePsd wfeC8 4 1 = psdC8 := by
  rw [ripplePsd, maskC8]
  rw [show (max (⌈(4 : ℝ) / 1⌉.toNat) 4) = 4 by
    rw [show ⌈(4 : ℝ) / 1⌉ = (4 : ℤ) by norm_num]
    rfl]
  exact powerC8

lemma filtC8 : rippleFiltered psdC8 kC8 ((4 : ℝ)⁻¹) (2 * (4 : ℝ)⁻¹) = psdC8 := by
  have hk : ∀ u v : ℕ, u < 3 → v < 3 → getR2 kC8 u v = 0.3 := by
    intro u v hu hv
    interval_cases u <;> interval_cases v <;> rfl
  have hM : ∀ u v : ℕ, u < 3 → v < 3 →
      getM2 psdC8 u v = some (71111111/5625000) := by
    intro u v hu hv
    interval_cases u <;> interval_cases v <;> rfl
  have hent : ∀ u v : ℕ, u < 3 → v < 3 →
      (if getR2 kC8 u v < (4 : ℝ)⁻¹ ∨ 2 * (4 : ℝ)⁻¹ < getR2 kC8 u v
        then some (0 : ℝ) else getM2 psdC8 u v) = some (71111111/5625000) := by
    intro u v hu hv
    rw [hk u v hu hv, if_neg (by norm_num), hM u v hu hv]
  rw [rippleFiltered]
  rw [show List.range psdC8.length = [0, 1, 2] from rfl]
  simp only [List.map_cons, List.map_nil]
  rw [show List.range ((psdC8.getD 0 []).length) = [0, 1, 2] from rfl,
    show List.range ((psdC8.getD 1 []).length) = [0, 1, 2] from rfl,
    show List.range ((psdC8.getD 2 []).length) = [0, 1, 2] from rfl]
  simp only [List.map_cons, List.map_nil]
  rw [hent 0 0 (by norm_num) (by norm_num), hent 0 1 (by norm_num) (by norm_num),
    hent 0 2 (by norm_num) (by norm_num), hent 1 0 (by norm_num) (by norm_num),
    hent 1 1 (by norm_num) (by norm_num), hent 1 2 (by norm_num) (by norm_num),
    hent 2 0 (by norm_num) (by norm_num), hent 2 1 (by norm_num) (by norm_num),
    hent 2 2 (by norm_num) (by norm_num)]
  rfl

lemma rmsC8_false :
    rmsripple wfeC8 4 2 kC8 1 1 false = some (Real.sqrt (71111111/5625000)) := by
  rw [rmsripple, if_neg (by simp)]
  rw [rippleC8_psd, filtC8]
  rw [show (rippleDC psdC8).flatten =
    [none, some ((71111111 : ℝ)/5625000), some (71111111/5625000),
      some (71111111/5625000), some (71111111/5625000), some (71111111/5625000),
      some (71111111/5625000), some (71111111/5625000), some (71111111/5625000)]
    from rfl]
  rw [show nanmeanOpt
    [none, some ((71111111 : ℝ)/5625000), some (71111111/5625000),
      some (71111111/5625000), some (71111111/5625000), some (71111111/5625000),
      some (71111111/5625000), some (71111111/5625000), some (71111111/5625000)] =
    some (((71111111 : ℝ)/5625000 + (71111111/5625000 + (71111111/5625000 +
      (71111111/5625000 + (71111111/5625000 + (71111111/5625000 +
      (71111111/5625000 + (71111111/5625000 + 0)))))))) / ((8 : ℕ) : ℝ))
    from rfl]
  rw [Option.map_some']
  norm_num

lemma rmsC8_true :
    rmsripple wfeC8 4 2 kC8 1 1 true = some (Real.sqrt (71111111/11250000)) := by
  rw [rmsripple, if_pos rfl]
  rw [rippleC8_psd, filtC8]
  rw [show ((rippleDC psdC8).map (List.map (Option.map (fun x : ℝ => x / 2)))).flatten =
    [none, some ((71111111 : ℝ)/5625000 / 2), some (71111111/5625000 / 2),
      some (71111111/5625000 / 2), some (71111111/5625000 / 2),
      some (71111111/5625000 / 2), some (71111111/5625000 / 2),
      some (71111111/5625000 / 2), some (71111111/5625000 / 2)]
    from rfl]
  rw [show nanmeanOpt
    [none, some ((71111111 : ℝ)/5625000 / 2), some (71111111/5625000 / 2),
      some (71111111/5625000 / 2), some (71111111/5625000 / 2),
      some (71111111/5625000 / 2), some (71111111/5625000 / 2),
      some (71111111/5625000 / 2), some (71111111/5625000 / 2)] =
    some (((71111111 : ℝ)/5625000 / 2 + (71111111/5625000 / 2 +
      (71111111/5625000 / 2 + (71111111/5625000 / 2 + (71111111/5625000 / 2 +
      (71111111/5625000 / 2 + (71111111/5625000 / 2 +
      (71111111/5625000 / 2 + 0)))))))) / ((8 : ℕ) : ℝ))
    from rfl]
  rw [Option.map_some']
  norm_num

/-- C8 counterexample: at the concrete 6×6 input, `rmsripple` with `surf` set
returns `sqrt(P/2)` while half the unset value is `sqrt(P)/2`; these differ
because the PSD is halved BEFORE the square root. -/
theorem rmsripple_surf_not_half :
    rmsripple wfeC8 4 2 kC8 1 1 true ≠
      (rmsripple wfeC8 4 2 kC8 1 1 false).map (fun r => r / 2) := by
  rw [rmsC8_true, rmsC8_false, Option.map_some']
  intro h
  have h2 := Option.some.inj h
  have hL : Real.sqrt (71111111/11250000) ^ 2 = 71111111/11250000 :=
    Real.sq_sqrt (by norm_num)
  rw [h2, div_pow,
    Real.sq_sqrt (by norm_num : (0 : ℝ) ≤ 71111111/5625000)] at hL
  norm_num at hL

/-! ## wfe2psf (src/wfe2psf.py)

`wfe2psf(wfe, oversample)`: embed `exp(wfe * 2j*pi)` in the corner of an
`oversample*N × oversample*N` zero array, cyclically shift by `(-N/2, -N/2)`
(`np.shift` transliterates IDL `shift`; the Python `-N/2` float is the IDL
integer shift `-N/2`), forward-FFT, take the squared magnitude, shift back by
`(+N/2, +N/2)`, crop to `N×N`, and divide by the sum of the CROPPED intensity.
`N = wfe.size()` transliterates IDL's side length of the square map.  The
result is real (a squared magnitude) and `N×N` by construction. -/

/-- The zero-padded complex field `bigmap[:N, :N] = np.exp(wfe * 2.0j * np.pi)`. -/
def psfBigmap (N k : ℕ) (wfe : ℕ → ℕ → ℂ) (i j : ℕ) : ℂ :=
  if i < N ∧ j < N then Complex.exp (wfe i j * (2 * Real.pi * Complex.I)) else 0

/-- `np.shift(bigmap, -N/2, -N/2)` — cyclic shift on the `k*N` torus. -/
def psfBigmapShifted (N k : ℕ) (wfe : ℕ → ℕ → ℂ) (i j : ℕ) : ℂ :=
  psfBigmap N k wfe ((i + N / 2) % (k * N)) ((j + N / 2) % (k * N))

/-- `Efield = np.fft.fft2(bigmap)`. -/
def psfEfield (N k : ℕ) (wfe : ℕ → ℕ → ℂ) (u v : ℕ) : ℂ :=
  ∑ a ∈ range (k * N), ∑ b ∈ range (k * N),
    psfBigmapShifted N k wfe a b *
      Complex.exp (-(2 * Real.pi * Complex.I) *
        ((a : ℕ) * u / (k * N) + (b : ℕ) * v / (k * N)))

/-- `intensity = np.square(np.absolute(Efield))`. -/
def psfIntensity (N k : ℕ) (wfe : ℕ → ℕ → ℂ) (u v : ℕ) : ℝ :=
  Complex.normSq (psfEfield N k wfe u v)

/-- `(np.shift(intensity, N/2, N/2))[:N, :N]` — the recentred, cropped
intensity (the backward cyclic shift written with natural-number arithmetic). -/
def psfIntensitySmall (N k : ℕ) (wfe : ℕ → ℕ → ℂ) (i j : ℕ) : ℝ :=
  psfIntensity N k wfe ((i + (k * N - N / 2)) % (k * N))
    ((j + (k * N - N / 2)) % (k * N))

/-- `intensity_small.sum()` over the `N×N` crop. -/
def psfTotal (N k : ℕ) (wfe : ℕ → ℕ → ℂ) : ℝ :=
  ∑ i ∈ range N, ∑ j ∈ range N, psfIntensitySmall N k wfe i j

/-- `psf = np.divide(intensity_small, intensity_small.sum())`. -/
def wfe2psf (N k : ℕ) (wfe : ℕ → ℕ → ℂ) (i j : ℕ) : ℝ :=
  psfIntensitySmall N k wfe i j / psfTotal N k wfe

/-- C2: for every square complex map and oversample `k ≥ 1`, as long as the
cropped intensity has nonzero total, the PSF of `wfe2psf` is (real and `N×N`
by construction,) non-negative everywhere and sums to exactly 1. -/
theorem wfe2psf_nonneg_sum_one (N k : ℕ) (wfe : ℕ → ℕ → ℂ) (hk : 1 ≤ k)
    (hS : psfTotal N k wfe ≠ 0) :
    (∀ i j, 0 ≤ wfe2psf N k wfe i j) ∧
    (∑ i ∈ range N, ∑ j ∈ range N, wfe2psf N k wfe i j) = 1 := by
  have hnn : ∀ i j, 0 ≤ psfIntensitySmall N k wfe i j := fun i j =>
    Complex.normSq_nonneg _
  have hS0 : 0 ≤ psfTotal N k wfe :=
    Finset.sum_nonneg fun i _ => Finset.sum_nonneg fun j _ => hnn i j
  constructor
  · intro i j
    exact div_nonneg (hnn i j) hS0
  · unfold wfe2psf
    rw [Finset.sum_congr rfl fun i _ => (Finset.sum_div _ _ _).symm,
      ← Finset.sum_div]
    exact div_self hS

lemma psfTotal_one : psfTotal 1 1 (fun _ _ => 0) = 1 := by
  rw [psfTotal, Finset.sum_range_one, Finset.sum_range_one]
  rw [psfIntensitySmall, psfIntensity, psfEfield]
  rw [show (1 * 1 : ℕ) = 1 from rfl]
  rw [Finset.sum_range_one, Finset.sum_range_one]
  rw [psfBigmapShifted, psfBigmap]
  norm_num

/-- Witness for C2 at `N = 1`, `k = 1`, `wfe = 0`. -/
theorem wfe2psf_nonneg_sum_one_witness :
    (1 : ℕ) ≤ 1 ∧ psfTotal 1 1 (fun _ _ => 0) ≠ 0 ∧
    (∀ i j, 0 ≤ wfe2psf 1 1 (fun _ _ => 0) i j) ∧
    (∑ i ∈ range 1, ∑ j ∈ range 1, wfe2psf 1 1 (fun _ _ => 0) i j) = 1 := by
  have hS : psfTotal 1 1 (fun _ _ => 0) ≠ 0 := by
    rw [psfTotal_one]
    norm_num
  obtain ⟨h1, h2⟩ := wfe2psf_nonneg_sum_one 1 1 (fun _ _ => 0) le_rfl hS
  exact ⟨le_rfl, hS, h1, h2⟩

/-! ## psd2wfe (src/psd2wfe.py)

`psd2wfe(psd, rms=0, pv=0.25, circular=False, oversize=1.0,
keep_defocus=False)`.  Notes on the embedding:
* Line 73 `np.fft.fftfreq(2 * N) < N` transliterates IDL `dist(2N) < N` — the
  2N×2N radial-frequency array clamped (IDL `<` = min) at `N`, per the
  source's own comment "2n_psd x 2n_psd array of frequencies".
* Line 75's `> 0` is the IDL clamp (max) "to eliminate negatives that creep
  in from the interpolation", per the adjacent comment.
* Line 81 `np.random.rand(2N, 2N)` draws from the process-wide NumPy
  generator; it is embedded by explicit state passing: `rng m` is the m-th
  uniform draw of the global stream, consumed row-major.  No generator is a
  parameter of the source function.
* Line 83 multiplies the phases by `np.sqrt(1.0j)` = `√2/2·(1+i)`.
* Line 85 `np.fft.fft2d` is the forward 2D FFT; line 87 crops to
  `(N-1)×(N-1)`.
* Line 96 calls `fit_spherical_wave(wfe1)`; the second positional argument
  `wfe_aperture` is omitted at the call site — we pass the map itself, which
  is equivalent because that argument is multiplied by an exactly-zero sum
  (see `fit_eq_piston`).
* Lines 116-128 build the aperture index set with `N`-sized grids although the
  cropped map is `(N-1)×(N-1)` (an off-by-one transliteration); the embedding
  uses the index set of the cropped array, as the spec's §8 scenario
  prescribes, with the source's radius formula.
* Lines 134-146: mean subtraction over the aperture, then `rms` scaling when
  `rms` is truthy (non-zero), otherwise `pv` scaling. -/

/-- Wrapped distance of index `i` from the origin on a length-`n` FFT grid. -/
def wrapIdx (n i : ℕ) : ℕ := min i (n - i)

/-- The 2N×2N radial frequency array clamped at `N` (IDL `dist(2N) < N`). -/
def psdFreq (N : ℕ) (i j : ℕ) : ℝ :=
  min (Real.sqrt ((wrapIdx (2 * N) i : ℝ) ^ 2 + (wrapIdx (2 * N) j : ℝ) ^ 2))
    (N : ℝ)

/-- Table lookup with edge clamping. -/
def tableGet (t : List ℝ) (i : ℕ) : ℝ := t.getD (min i (t.length - 1)) 0

/-- Modelled from the spec: the IDL library routine `interpolate` called at
src/psd2wfe.py line 75 is not part of this repository.  The spec says the 1D
PSD is interpolated onto the 2D frequency grid, "extrapolating flat beyond
the available 1D Nyquist range"; we model 1D table interpolation linearly
between clamped table entries (the claims settled here are independent of the
interpolation kernel). -/
def interpolate1 (t : List ℝ) (x : ℝ) : ℝ :=
  tableGet t (⌊x⌋.toNat) +
    (x - (⌊x⌋.toNat : ℝ)) * (tableGet t (⌊x⌋.toNat + 1) - tableGet t (⌊x⌋.toNat))

/-- `ft_power`: interpolated PSD clamped to non-negative (IDL `> 0`). -/
def ftPower (psd : List ℝ) (i j : ℕ) : ℝ :=
  max (interpolate1 psd (psdFreq psd.length i j)) 0

/-- `ft_amplitudes = np.sqrt(ft_power)`. -/
def ftAmplitude (psd : List ℝ) (i j : ℕ) : ℝ := Real.sqrt (ftPower psd i j)

/-- `np.sqrt(1.0j) = √2/2 + √2/2·i` (the principal square root). -/
def sqrtI : ℂ := ⟨Real.sqrt 2 / 2, Real.sqrt 2 / 2⟩

/-- `ft_phases = 2.0 * np.pi * np.random.rand(2N, 2N)`, entry `(i, j)` taken
from the global draw stream row-major. -/
def ftPhase (N : ℕ) (rng : ℕ → ℝ) (i j : ℕ) : ℝ :=
  2 * Real.pi * rng (i * (2 * N) + j)

/-- `ft_complex = ft_amplitudes * np.exp(np.sqrt(1.0j) * ft_phases)`. -/
def ftComplex (psd : List ℝ) (rng : ℕ → ℝ) (i j : ℕ) : ℂ :=
  ((ftAmplitude psd i j : ℝ) : ℂ) *
    Complex.exp (sqrtI * ((ftPhase psd.length rng i j : ℝ) : ℂ))

/-- `wfe_big = np.fft.fft2d(ft_complex).real`. -/
def wfeBig (psd : List ℝ) (rng : ℕ → ℝ) (i j : ℕ) : ℝ :=
  (∑ a ∈ range (2 * psd.length), ∑ b ∈ range (2 * psd.length),
    ftComplex psd rng a b * Complex.exp (-(2 * Real.pi * Complex.I) *
      (((a : ℕ) : ℂ) * ((i : ℕ) : ℂ) / ((2 * psd.length : ℕ) : ℂ) +
        ((b : ℕ) : ℂ) * ((j : ℕ) : ℂ) / ((2 * psd.length : ℕ) : ℂ)))).re

/-- The cropped map minus the best-fit spherical wave:
`wfe = np.complex(wfe1 - spherewave)` on the `(N-1)×(N-1)` crop. -/
def psd2wfePre (psd : List ℝ) (rng : ℕ → ℝ) (keep_defocus : Bool) :
    ℕ → ℕ → ℂ :=
  fun i j => ((wfeBig psd rng i j : ℝ) : ℂ) -
    (if keep_defocus then 0
     else fit_spherical_wave (psd.length - 1) (psd.length - 1)
       (fun a b => ((wfeBig psd rng a b : ℝ) : ℂ))
       (fun a b => ((wfeBig psd rng a b : ℝ) : ℂ)) i j)

/-- `axis = np.linspace(-N//2, N//2, N)`. -/
def psd2wfeAxis (N : ℕ) (m : ℕ) : ℝ :=
  -((N / 2 : ℕ) : ℝ) + (m : ℝ) * (2 * ((N / 2 : ℕ) : ℝ)) / ((N : ℝ) - 1)

/-- `radius = np.sqrt(axis**2 + axis[:, np.newaxis]**2)`. -/
def psd2wfeRadius (N : ℕ) (i j : ℕ) : ℝ :=
  Real.sqrt (psd2wfeAxis N j ^ 2 + psd2wfeAxis N i ^ 2)

/-- The normalisation index set: the full cropped array, restricted (when
`circular`) to `radius < oversize * 0.5 * N`. -/
def psd2wfeAperture (N : ℕ) (circular : Bool) (oversize : ℝ) :
    Finset (ℕ × ℕ) :=
  if circular then
    ((range (N - 1)) ×ˢ (range (N - 1))).filter
      (fun p => psd2wfeRadius N p.1 p.2 < oversize * 0.5 * (N : ℝ))
  else (range (N - 1)) ×ˢ (range (N - 1))

/-- The map after circular masking: `wfe[crop] = 1e9j` where
`radius >= oversize * 0.5 * N`. -/
def psd2wfeMasked (psd : List ℝ) (rng : ℕ → ℝ) (keep_defocus circular : Bool)
    (oversize : ℝ) : ℕ → ℕ → ℂ :=
  fun i j =>
    if circular = true ∧
        oversize * 0.5 * (psd.length : ℝ) ≤ psd2wfeRadius psd.length i j then
      ((1e9 : ℝ) : ℂ) * Complex.I
    else psd2wfePre psd rng keep_defocus i j

/-- `wfe[aperture] -= wfe[aperture].mean()`. -/
def psd2wfeCentered (psd : List ℝ) (rng : ℕ → ℝ) (keep_defocus circular : Bool)
    (oversize : ℝ) : ℕ → ℕ → ℂ :=
  fun i j => psd2wfeMasked psd rng keep_defocus circular oversize i j -
    ameanC (psd2wfeAperture psd.length circular oversize)
      (psd2wfeMasked psd rng keep_defocus circular oversize)

/-- `np.std` of a complex array over an index set:
`sqrt(mean(abs(x - x.mean())**2))`. -/
def astdC (A : Finset (ℕ × ℕ)) (w : ℕ → ℕ → ℂ) : ℝ :=
  Real.sqrt ((∑ p ∈ A, Complex.normSq (w p.1 p.2 - ameanC A w)) / A.card)

/-- Standard deviation of a real map over an index set. -/
def astdR (A : Finset (ℕ × ℕ)) (f : ℕ → ℕ → ℝ) : ℝ :=
  Real.sqrt ((∑ p ∈ A, (f p.1 p.2 - ameanR A f) ^ 2) / A.card)

/-- `np.ptp` over the aperture (max minus min of the real parts; the masked
aperture samples have zero imaginary part). -/
def aptpC (A : Finset (ℕ × ℕ)) (w : ℕ → ℕ → ℂ) : ℝ :=
  ((A.image fun p => (w p.1 p.2).re).max.unbot' 0) -
    ((A.image fun p => (w p.1 p.2).re).min.untop' 0)

/-- `psd2wfe`: mean-subtract over the aperture, then scale by
`rms / std` when `rms` is non-zero (Python truthiness of the default `rms=0`),
otherwise by `pv / ptp`; samples outside the aperture keep their masked
values. -/
def psd2wfe (psd : List ℝ) (rng : ℕ → ℝ) (rms pv : ℝ) (circular : Bool)
    (oversize : ℝ) (keep_defocus : Bool) : ℕ → ℕ → ℂ :=
  fun i j =>
    if (i, j) ∈ psd2wfeAperture psd.length circular oversize then
      (if rms ≠ 0 then
        psd2wfeCentered psd rng keep_defocus circular oversize i j *
          ((rms / astdC (psd2wfeAperture psd.length circular oversize)
            (psd2wfeCentered psd rng keep_defocus circular oversize) : ℝ) : ℂ)
      else
        psd2wfeCentered psd rng keep_defocus circular oversize i j *
          ((pv / aptpC (psd2wfeAperture psd.length circular oversize)
            (psd2wfeCentered psd rng keep_defocus circular oversize) : ℝ) : ℂ))
    else psd2wfeMasked psd rng keep_defocus circular oversize i j

lemma ameanR_congr (A : Finset (ℕ × ℕ)) (f g : ℕ → ℕ → ℝ)
    (h : ∀ p ∈ A, f p.1 p.2 = g p.1 p.2) : ameanR A f = ameanR A g := by
  rw [ameanR, ameanR, Finset.sum_congr rfl h]

lemma astdR_congr (A : Finset (ℕ × ℕ)) (f g : ℕ → ℕ → ℝ)
    (h : ∀ p ∈ A, f p.1 p.2 = g p.1 p.2) : astdR A f = astdR A g := by
  rw [astdR, astdR, ameanR_congr A f g h,
    Finset.sum_congr rfl fun p hp => by rw [h p hp]]

/-- The mean-subtract-then-scale normalisation: on any aperture over which the
map is real (zero imaginary parts), scaling the centred values by
`r / std(centred)` yields zero aperture mean and aperture standard deviation
exactly `r`, provided the centred standard deviation is non-zero. -/
lemma normalize_mean_std (A : Finset (ℕ × ℕ)) (w : ℕ → ℕ → ℂ) (r : ℝ)
    (hr : 0 < r) (him : ∀ p ∈ A, (w p.1 p.2).im = 0)
    (hstd : astdC A (fun i j => w i j - ameanC A w) ≠ 0) :
    (∀ p ∈ A, ((w p.1 p.2 - ameanC A w) *
        ((r / astdC A (fun i j => w i j - ameanC A w) : ℝ) : ℂ)).im = 0) ∧
    ameanR A (fun i j => ((w i j - ameanC A w) *
        ((r / astdC A (fun i j => w i j - ameanC A w) : ℝ) : ℂ)).re) = 0 ∧
    astdR A (fun i j => ((w i j - ameanC A w) *
        ((r / astdC A (fun i j => w i j - ameanC A w) : ℝ) : ℂ)).re) = r := by
  have hcard : A.card ≠ 0 := by
    intro h0
    apply hstd
    rw [astdC, Finset.card_eq_zero.mp h0]
    simp
  have hcc : (A.card : ℂ) ≠ 0 := Nat.cast_ne_zero.mpr hcard
  have hcardR : ((A.card : ℕ) : ℝ) ≠ 0 := Nat.cast_ne_zero.mpr hcard
  have him_m : (ameanC A w).im = 0 := by
    rw [ameanC]
    rw [show ((A.card : ℕ) : ℂ) = (((A.card : ℕ) : ℝ) : ℂ) by push_cast; rfl]
    rw [Complex.div_ofReal_im]
    rw [Complex.im_sum]
    rw [Finset.sum_eq_zero him, zero_div]
  have hsum_C : (∑ p ∈ A, (w p.1 p.2 - ameanC A w)) = 0 := by
    rw [Finset.sum_sub_distrib, Finset.sum_const, nsmul_eq_mul, ameanC,
      mul_div_cancel₀ _ hcc, sub_self]
  have hmean_C : ameanC A (fun i j => w i j - ameanC A w) = 0 := by
    rw [ameanC]
    rw [hsum_C, zero_div]
  have hσ_nonneg : 0 ≤ astdC A (fun i j => w i j - ameanC A w) :=
    Real.sqrt_nonneg _
  have hσ_pos : 0 < astdC A (fun i j => w i j - ameanC A w) :=
    lt_of_le_of_ne hσ_nonneg (Ne.symm hstd)
  have hY : astdC A (fun i j => w i j - ameanC A w) ^ 2 =
      (∑ p ∈ A, Complex.normSq (w p.1 p.2 - ameanC A w)) / A.card := by
    rw [astdC]
    rw [Finset.sum_congr rfl fun p _ => by rw [hmean_C, sub_zero]]
    refine Real.sq_sqrt ?_
    have : 0 ≤ ∑ p ∈ A, Complex.normSq (w p.1 p.2 - ameanC A w) :=
      Finset.sum_nonneg fun p _ => Complex.normSq_nonneg _
    positivity
  have hre : ∀ p : ℕ × ℕ, ((w p.1 p.2 - ameanC A w) *
      ((r / astdC A (fun i j => w i j - ameanC A w) : ℝ) : ℂ)).re =
      (w p.1 p.2 - ameanC A w).re *
        (r / astdC A (fun i j => w i j - ameanC A w)) := by
    intro p
    rw [Complex.mul_re, Complex.ofReal_re, Complex.ofReal_im, mul_zero, sub_zero]
  have him_C : ∀ p ∈ A, (w p.1 p.2 - ameanC A w).im = 0 := by
    intro p hp
    rw [Complex.sub_im, him p hp, him_m, sub_zero]
  have hmean0 : ameanR A (fun i j => ((w i j - ameanC A w) *
      ((r / astdC A (fun i j => w i j - ameanC A w) : ℝ) : ℂ)).re) = 0 := by
    rw [ameanR]
    rw [Finset.sum_congr rfl fun p _ => hre p]
    rw [← Finset.sum_mul]
    rw [show (∑ p ∈ A, (w p.1 p.2 - ameanC A w).re) =
      (∑ p ∈ A, (w p.1 p.2 - ameanC A w)).re by rw [Complex.re_sum]]
    rw [hsum_C]
    simp
  refine ⟨?_, hmean0, ?_⟩
  · intro p hp
    rw [Complex.mul_im, Complex.ofReal_re, Complex.ofReal_im, mul_zero,
      zero_add, him_C p hp, zero_mul]
  · rw [astdR]
    rw [hmean0]
    rw [Finset.sum_congr rfl fun p _ => by rw [sub_zero, hre p]]
    rw [Finset.sum_congr rfl fun p hp => by
      rw [mul_pow, show (w p.1 p.2 - ameanC A w).re ^ 2 =
        Complex.normSq (w p.1 p.2 - ameanC A w) by
          rw [Complex.normSq_apply, him_C p hp, sq]
          ring]]
    rw [← Finset.sum_mul]
    rw [show (∑ p ∈ A, Complex.normSq (w p.1 p.2 - ameanC A w)) *
        (r / astdC A (fun i j => w i j - ameanC A w)) ^ 2 / A.card =
      (r / astdC A (fun i j => w i j - ameanC A w)) ^ 2 *
        ((∑ p ∈ A, Complex.normSq (w p.1 p.2 - ameanC A w)) / A.card) by ring]
    rw [← hY]
    rw [show (r / astdC A (fun i j => w i j - ameanC A w)) ^ 2 *
        astdC A (fun i j => w i j - ameanC A w) ^ 2 =
      (r / astdC A (fun i j => w i j - ameanC A w) *
        astdC A (fun i j => w i j - ameanC A w)) ^ 2 by ring]
    rw [Real.sqrt_sq (by positivity)]
    rw [div_mul_cancel₀ _ hσ_pos.ne']

lemma ameanC_im_zero (A : Finset (ℕ × ℕ)) (w : ℕ → ℕ → ℂ)
    (h : ∀ p ∈ A, (w p.1 p.2).im = 0) : (ameanC A w).im = 0 := by
  rw [ameanC, show ((A.card : ℕ) : ℂ) = (((A.card : ℕ) : ℝ) : ℂ) by push_cast; rfl,
    Complex.div_ofReal_im, Complex.im_sum, Finset.sum_eq_zero h, zero_div]

lemma psd2wfePre_im (psd : List ℝ) (rng : ℕ → ℝ) (keep_defocus : Bool)
    (i j : ℕ) : (psd2wfePre psd rng keep_defocus i j).im = 0 := by
  rw [psd2wfePre]
  cases keep_defocus with
  | true =>
      rw [if_pos rfl]
      simp
  | false =>
      rw [if_neg (by simp)]
      rw [fit_eq_piston]
      rw [Complex.sub_im, Complex.ofReal_im,
        ameanC_im_zero _ _ (fun p _ => Complex.ofReal_im _)]
      ring

lemma psd2wfeMasked_im (psd : List ℝ) (rng : ℕ → ℝ)
    (keep_defocus circular : Bool) (oversize : ℝ) :
    ∀ p ∈ psd2wfeAperture psd.length circular oversize,
      (psd2wfeMasked psd rng keep_defocus circular oversize p.1 p.2).im = 0 := by
  intro p hp
  rw [psd2wfeMasked]
  by_cases hc : circular = true ∧
      oversize * 0.5 * (psd.length : ℝ) ≤ psd2wfeRadius psd.length p.1 p.2
  · exfalso
    rcases hc with ⟨hc1, hc2⟩
    rw [psd2wfeAperture, hc1, if_pos rfl] at hp
    have := (Finset.mem_filter.mp hp).2
    linarith
  · rw [if_neg hc]
    exact psd2wfePre_im psd rng keep_defocus p.1 p.2

/-- C1: for every PSD, draw stream, targets and options, whenever the centred
aperture standard deviation is non-zero and the target RMS `r` is positive,
the map returned by `psd2wfe` with `rms = r` has zero imaginary part on the
aperture, aperture mean of the real part exactly 0, aperture RMS of the real
part exactly `r`, and is independent of the `pv` target (RMS takes
precedence: with `rms` non-zero the `pv` branch is never taken). -/
theorem psd2wfe_normalization (psd : List ℝ) (rng : ℕ → ℝ) (r pv : ℝ)
    (circular keep_defocus : Bool) (oversize : ℝ) (hr : 0 < r)
    (hstd : astdC (psd2wfeAperture psd.length circular oversize)
      (psd2wfeCentered psd rng keep_defocus circular oversize) ≠ 0) :
    (∀ p ∈ psd2wfeAperture psd.length circular oversize,
      (psd2wfe psd rng r pv circular oversize keep_defocus p.1 p.2).im = 0) ∧
    ameanR (psd2wfeAperture psd.length circular oversize)
      (fun i j => (psd2wfe psd rng r pv circular oversize keep_defocus i j).re) =
      0 ∧
    astdR (psd2wfeAperture psd.length circular oversize)
      (fun i j => (psd2wfe psd rng r pv circular oversize keep_defocus i j).re) =
      r ∧
    ∀ pv', psd2wfe psd rng r pv circular oversize keep_defocus =
      psd2wfe psd rng r pv' circular oversize keep_defocus := by
  set A := psd2wfeAperture psd.length circular oversize with hA
  set w := psd2wfeMasked psd rng keep_defocus circular oversize with hwdef
  have him : ∀ p ∈ A, (w p.1 p.2).im = 0 :=
    psd2wfeMasked_im psd rng keep_defocus circular oversize
  have hstd' : astdC A (fun i j => w i j - ameanC A w) ≠ 0 := hstd
  obtain ⟨h1, h2, h3⟩ := normalize_mean_std A w r hr him hstd'
  have hout : ∀ p ∈ A,
      psd2wfe psd rng r pv circular oversize keep_defocus p.1 p.2 =
        (w p.1 p.2 - ameanC A w) *
          ((r / astdC A (fun i j => w i j - ameanC A w) : ℝ) : ℂ) := by
    intro p hp
    rw [psd2wfe]
    rw [if_pos (show ((p.1, p.2) : ℕ × ℕ) ∈
      psd2wfeAperture psd.length circular oversize by
        rw [Prod.mk.eta]; exact hp)]
    rw [if_pos hr.ne']
    rfl
  refine ⟨?_, ?_, ?_, ?_⟩
  · intro p hp
    rw [hout p hp]
    exact h1 p hp
  · have hmean_eq : ameanR A
        (fun i j => (psd2wfe psd rng r pv circular oversize keep_defocus i j).re) =
        ameanR A (fun i j => ((w i j - ameanC A w) *
          ((r / astdC A (fun i j => w i j - ameanC A w) : ℝ) : ℂ)).re) :=
      ameanR_congr _ _ _ (fun p hp => congrArg Complex.re (hout p hp))
    rw [hmean_eq]
    exact h2
  · have hstd_eq : astdR A
        (fun i j => (psd2wfe psd rng r pv circular oversize keep_defocus i j).re) =
        astdR A (fun i j => ((w i j - ameanC A w) *
          ((r / astdC A (fun i j => w i j - ameanC A w) : ℝ) : ℂ)).re) :=
      astdR_congr _ _ _ (fun p hp => congrArg Complex.re (hout p hp))
    rw [hstd_eq]
    exact h3
  · intro pv'
    funext i j
    rw [psd2wfe, psd2wfe]
    by_cases hm : (i, j) ∈ psd2wfeAperture psd.length circular oversize
    · rw [if_pos hm, if_pos hm, if_pos hr.ne', if_pos hr.ne']
    · rw [if_neg hm, if_neg hm]

/-! ### Concrete psd2wfe evaluation: flat PSD `[1,1,1]`, constant draw streams -/

/-- Flat three-element PSD. -/
def psdC1 : List ℝ := [1, 1, 1]

/-- A global draw stream frozen at 0. -/
def rngZero : ℕ → ℝ := fun _ => 0

/-- A global draw stream frozen at 1/2. -/
def rngHalf : ℕ → ℝ := fun _ => 1 / 2

lemma interpolate1_ones (x : ℝ) : interpolate1 [1, 1, 1] x = 1 := by
  have ht : ∀ i : ℕ, tableGet [1, 1, 1] i = 1 := by
    intro i
    rw [tableGet]
    rcases i with _ | _ | i
    · rfl
    · rfl
    · rw [show ([(1 : ℝ), 1, 1].length - 1) = 2 from rfl,
        Nat.min_eq_right (by omega)]
      rfl
  rw [interpolate1, ht, ht]
  ring

lemma ftComplex_zero_stream (a b : ℕ) : ftComplex psdC1 rngZero a b = 1 := by
  rw [ftComplex, ftAmplitude, ftPower]
  rw [show psdC1 = [(1 : ℝ), 1, 1] from rfl]
  rw [interpolate1_ones, ftPhase]
  rw [show rngZero (a * (2 * [(1 : ℝ), 1, 1].length) + b) = 0 from rfl]
  rw [show max (1 : ℝ) 0 = 1 by norm_num, Real.sqrt_one]
  norm_num

/-- The constant Fourier coefficient produced by the all-1/2 stream. -/
def zHalf : ℂ := Complex.exp (sqrtI * ((Real.pi : ℝ) : ℂ))

lemma ftComplex_half_stream (a b : ℕ) : ftComplex psdC1 rngHalf a b = zHalf := by
  rw [ftComplex, ftAmplitude, ftPower]
  rw [show psdC1 = [(1 : ℝ), 1, 1] from rfl]
  rw [interpolate1_ones, ftPhase]
  rw [show rngHalf (a * (2 * [(1 : ℝ), 1, 1].length) + b) = 1 / 2 from rfl]
  rw [show max (1 : ℝ) 0 = 1 by norm_num, Real.sqrt_one]
  rw [show (2 * Real.pi * (1 / 2) : ℝ) = Real.pi by ring]
  rw [zHalf]
  norm_num

lemma exp_six_ne_one :
    Complex.exp (-(2 * Real.pi * Complex.I) / 6) ≠ 1 := by
  intro h
  rw [Complex.exp_eq_one_iff] at h
  obtain ⟨n, hn⟩ := h
  have h2piI : (2 * (Real.pi : ℂ) * Complex.I) ≠ 0 :=
    mul_ne_zero (mul_ne_zero two_ne_zero
      (by exact_mod_cast Real.pi_ne_zero)) Complex.I_ne_zero
  have hz : (6 * (n : ℂ) + 1) * (2 * (Real.pi : ℂ) * Complex.I) = 0 := by
    linear_combination (-6 : ℂ) * hn
  rcases mul_eq_zero.mp hz with h6 | h6
  · have : (6 * n + 1 : ℤ) = 0 := by exact_mod_cast h6
    omega
  · exact h2piI h6

lemma geo6 : (∑ a ∈ range 6,
    Complex.exp (((a : ℕ) : ℂ) * (-(2 * Real.pi * Complex.I) / 6))) = 0 := by
  have hpow : (∑ a ∈ range 6,
      Complex.exp (((a : ℕ) : ℂ) * (-(2 * Real.pi * Complex.I) / 6))) =
      ∑ a ∈ range 6, Complex.exp (-(2 * Real.pi * Complex.I) / 6) ^ a :=
    Finset.sum_congr rfl fun a _ => by
      rw [← Complex.exp_nat_mul (-(2 * Real.pi * Complex.I) / 6) a]
  rw [hpow, geom_sum_eq exp_six_ne_one]
  rw [← Complex.exp_nat_mul]
  rw [show ((6 : ℕ) : ℂ) * (-(2 * Real.pi * Complex.I) / 6) =
    ((-1 : ℤ) : ℂ) * (2 * (Real.pi : ℂ) * Complex.I) by push_cast; ring]
  rw [Complex.exp_int_mul_two_pi_mul_I]
  simp

lemma wfeBig_psdC1 (rng : ℕ → ℝ) (z : ℂ)
    (hconst : ∀ a b : ℕ, ftComplex psdC1 rng a b = z) :
    ∀ i j : ℕ, i < 2 → j < 2 →
      wfeBig psdC1 rng i j = if i = 0 ∧ j = 0 then 36 * z.re else 0 := by
  intro i j hi hj
  rw [wfeBig]
  rw [show (2 * psdC1.length) = 6 from rfl]
  have hsplit : (∑ a ∈ range 6, ∑ b ∈ range 6,
      ftComplex psdC1 rng a b * Complex.exp (-(2 * Real.pi * Complex.I) *
        (((a : ℕ) : ℂ) * ((i : ℕ) : ℂ) / ((6 : ℕ) : ℂ) +
          ((b : ℕ) : ℂ) * ((j : ℕ) : ℂ) / ((6 : ℕ) : ℂ)))) =
      z * (∑ a ∈ range 6, Complex.exp (((a : ℕ) : ℂ) *
          (-(2 * Real.pi * Complex.I) * ((i : ℕ) : ℂ) / 6))) *
        (∑ b ∈ range 6, Complex.exp (((b : ℕ) : ℂ) *
          (-(2 * Real.pi * Complex.I) * ((j : ℕ) : ℂ) / 6))) := by
    rw [Finset.sum_congr rfl fun a _ => Finset.sum_congr rfl fun b _ => by
      rw [hconst a b,
        show (-(2 * (Real.pi : ℂ) * Complex.I) *
          (((a : ℕ) : ℂ) * ((i : ℕ) : ℂ) / ((6 : ℕ) : ℂ) +
            ((b : ℕ) : ℂ) * ((j : ℕ) : ℂ) / ((6 : ℕ) : ℂ))) =
          ((a : ℕ) : ℂ) * (-(2 * Real.pi * Complex.I) * ((i : ℕ) : ℂ) / 6) +
            ((b : ℕ) : ℂ) * (-(2 * Real.pi * Complex.I) * ((j : ℕ) : ℂ) / 6) by
          push_cast; ring,
        Complex.exp_add, ← mul_assoc]]
    rw [Finset.sum_congr rfl fun a _ => (Finset.mul_sum _ _ _).symm]
    rw [← Finset.sum_mul, ← Finset.mul_sum]
  rw [hsplit]
  have hz : (∑ a ∈ range 6, Complex.exp (((a : ℕ) : ℂ) *
      (-(2 * Real.pi * Complex.I) * (((0 : ℕ)) : ℂ) / 6))) = 6 := by
    rw [Finset.sum_congr rfl fun a _ => by
      rw [show (((a : ℕ) : ℂ) *
        (-(2 * Real.pi * Complex.I) * (((0 : ℕ)) : ℂ) / 6)) = 0 by
          push_cast; ring, Complex.exp_zero]]
    simp
  have ho : (∑ a ∈ range 6, Complex.exp (((a : ℕ) : ℂ) *
      (-(2 * Real.pi * Complex.I) * (((1 : ℕ)) : ℂ) / 6))) = 0 := by
    rw [Finset.sum_congr rfl fun a _ => by
      rw [show (-(2 * (Real.pi : ℂ) * Complex.I) * (((1 : ℕ)) : ℂ) / 6) =
        -(2 * Real.pi * Complex.I) / 6 by push_cast; ring]]
    exact geo6
  interval_cases i <;> interval_cases j
  · rw [hz, if_pos ⟨rfl, rfl⟩]
    rw [show z * 6 * 6 = ((36 : ℝ) : ℂ) * z by push_cast; ring]
    rw [Complex.mul_re, Complex.ofReal_re, Complex.ofReal_im]
    ring
  · rw [hz, ho, if_neg (by simp)]
    simp
  · rw [ho, hz, if_neg (by simp)]
    simp
  · rw [ho, if_neg (by simp)]
    simp

lemma hAC1 : psd2wfeAperture psdC1.length false 1 = (range 2) ×ˢ (range 2) := rfl

lemma hapC1 (rng : ℕ → ℝ) :
    apertureOf 2 2 (fun a b => ((wfeBig psdC1 rng a b : ℝ) : ℂ)) =
      (range 2) ×ˢ (range 2) := by
  rw [apertureOf]
  refine Finset.filter_true_of_mem fun p _ => ?_
  rw [Complex.ofReal_im]
  norm_num

lemma fitC1 (rng : ℕ → ℝ) (T : ℝ)
    (hbig : ∀ i j : ℕ, i < 2 → j < 2 →
      wfeBig psdC1 rng i j = if i = 0 ∧ j = 0 then T else 0) (i j : ℕ) :
    fit_spherical_wave 2 2 (fun a b => ((wfeBig psdC1 rng a b : ℝ) : ℂ))
      (fun a b => ((wfeBig psdC1 rng a b : ℝ) : ℂ)) i j = ((T / 4 : ℝ) : ℂ) := by
  have h00 : wfeBig psdC1 rng 0 0 = T := by
    rw [hbig 0 0 (by norm_num) (by norm_num)]
    norm_num
  have h01 : wfeBig psdC1 rng 0 1 = 0 := by
    rw [hbig 0 1 (by norm_num) (by norm_num)]
    norm_num
  have h10 : wfeBig psdC1 rng 1 0 = 0 := by
    rw [hbig 1 0 (by norm_num) (by norm_num)]
    norm_num
  have h11 : wfeBig psdC1 rng 1 1 = 0 := by
    rw [hbig 1 1 (by norm_num) (by norm_num)]
    norm_num
  rw [fit_eq_piston, hapC1 rng, ameanC, Finset.sum_product]
  dsimp only
  simp only [Finset.sum_range_succ, Finset.sum_range_zero]
  simp only [h00, h01, h10, h11]
  rw [show (((range 2) ×ˢ (range 2)).card) = 4 from rfl]
  push_cast
  ring

lemma preC1 (rng : ℕ → ℝ) (T : ℝ)
    (hbig : ∀ i j : ℕ, i < 2 → j < 2 →
      wfeBig psdC1 rng i j = if i = 0 ∧ j = 0 then T else 0) (i j : ℕ)
    (hi : i < 2) (hj : j < 2) :
    psd2wfePre psdC1 rng false i j =
      ((if i = 0 ∧ j = 0 then 3 * T / 4 else -(T / 4) : ℝ) : ℂ) := by
  rw [psd2wfePre, if_neg (by simp)]
  rw [show (psdC1.length - 1) = 2 from rfl]
  rw [fitC1 rng T hbig i j, hbig i j hi hj]
  by_cases hij : i = 0 ∧ j = 0
  · rw [if_pos hij, if_pos hij]
    push_cast
    ring
  · rw [if_neg hij, if_neg hij]
    push_cast
    ring

lemma maskedC1 (rng : ℕ → ℝ) (kd : Bool) (i j : ℕ) :
    psd2wfeMasked psdC1 rng kd false 1 i j = psd2wfePre psdC1 rng kd i j := by
  rw [psd2wfeMasked, if_neg (by simp)]

lemma meanC1 (rng : ℕ → ℝ) (T : ℝ)
    (hbig : ∀ i j : ℕ, i < 2 → j < 2 →
      wfeBig psdC1 rng i j = if i = 0 ∧ j = 0 then T else 0) :
    ameanC (psd2wfeAperture psdC1.length false 1)
      (psd2wfeMasked psdC1 rng false false 1) = 0 := by
  have p00 : psd2wfePre psdC1 rng false 0 0 = ((3 * T / 4 : ℝ) : ℂ) := by
    rw [preC1 rng T hbig 0 0 (by norm_num) (by norm_num)]
    norm_num
  have p01 : psd2wfePre psdC1 rng false 0 1 = ((-(T / 4) : ℝ) : ℂ) := by
    rw [preC1 rng T hbig 0 1 (by norm_num) (by norm_num)]
    norm_num
  have p10 : psd2wfePre psdC1 rng false 1 0 = ((-(T / 4) : ℝ) : ℂ) := by
    rw [preC1 rng T hbig 1 0 (by norm_num) (by norm_num)]
    norm_num
  have p11 : psd2wfePre psdC1 rng false 1 1 = ((-(T / 4) : ℝ) : ℂ) := by
    rw [preC1 rng T hbig 1 1 (by norm_num) (by norm_num)]
    norm_num
  rw [ameanC, hAC1, Finset.sum_product]
  dsimp only
  simp only [Finset.sum_range_succ, Finset.sum_range_zero]
  simp only [maskedC1, p00, p01, p10, p11]
  push_cast
  ring_nf

lemma centC1 (rng : ℕ → ℝ) (T : ℝ)
    (hbig : ∀ i j : ℕ, i < 2 → j < 2 →
      wfeBig psdC1 rng i j = if i = 0 ∧ j = 0 then T else 0) (i j : ℕ) :
    psd2wfeCentered psdC1 rng false false 1 i j = psd2wfePre psdC1 rng false i j := by
  rw [psd2wfeCentered, meanC1 rng T hbig, sub_zero, maskedC1]

lemma stdC1 (rng : ℕ → ℝ) (T : ℝ)
    (hbig : ∀ i j : ℕ, i < 2 → j < 2 →
      wfeBig psdC1 rng i j = if i = 0 ∧ j = 0 then T else 0) :
    astdC (psd2wfeAperture psdC1.length false 1)
      (psd2wfeCentered psdC1 rng false false 1) =
      Real.sqrt (3 * T ^ 2 / 16) := by
  have p00 : psd2wfePre psdC1 rng false 0 0 = ((3 * T / 4 : ℝ) : ℂ) := by
    rw [preC1 rng T hbig 0 0 (by norm_num) (by norm_num)]
    norm_num
  have p01 : psd2wfePre psdC1 rng false 0 1 = ((-(T / 4) : ℝ) : ℂ) := by
    rw [preC1 rng T hbig 0 1 (by norm_num) (by norm_num)]
    norm_num
  have p10 : psd2wfePre psdC1 rng false 1 0 = ((-(T / 4) : ℝ) : ℂ) := by
    rw [preC1 rng T hbig 1 0 (by norm_num) (by norm_num)]
    norm_num
  have p11 : psd2wfePre psdC1 rng false 1 1 = ((-(T / 4) : ℝ) : ℂ) := by
    rw [preC1 rng T hbig 1 1 (by norm_num) (by norm_num)]
    norm_num
  have hmean : ameanC (psd2wfeAperture psdC1.length false 1)
      (psd2wfeCentered psdC1 rng false false 1) = 0 := by
    rw [ameanC, hAC1, Finset.sum_product]
    dsimp only
    simp only [Finset.sum_range_succ, Finset.sum_range_zero]
    simp only [centC1 rng T hbig, p00, p01, p10, p11]
    push_cast
    ring_nf
  rw [astdC, hmean, hAC1]
  rw [Finset.sum_product]
  dsimp only
  simp only [Finset.sum_range_succ, Finset.sum_range_zero]
  simp only [centC1 rng T hbig, p00, p01, p10, p11, sub_zero]
  rw [show (((range 2) ×ˢ (range 2)).card) = 4 from rfl]
  simp only [Complex.normSq_ofReal]
  congr 1
  push_cast
  ring

lemma outC1_re (rng : ℕ → ℝ) (T : ℝ)
    (hbig : ∀ i j : ℕ, i < 2 → j < 2 →
      wfeBig psdC1 rng i j = if i = 0 ∧ j = 0 then T else 0) :
    (psd2wfe psdC1 rng 1 0.25 false 1 false 0 0).re =
      (3 * T / 4) * (1 / Real.sqrt (3 * T ^ 2 / 16)) := by
  have hmem : ((0 : ℕ), (0 : ℕ)) ∈ psd2wfeAperture psdC1.length false 1 := by
    rw [hAC1]
    refine Finset.mem_product.mpr ⟨?_, ?_⟩ <;> simp
  have p00 : psd2wfePre psdC1 rng false 0 0 = ((3 * T / 4 : ℝ) : ℂ) := by
    rw [preC1 rng T hbig 0 0 (by norm_num) (by norm_num)]
    norm_num
  rw [psd2wfe, if_pos hmem, if_pos (by norm_num : (1 : ℝ) ≠ 0)]
  rw [centC1 rng T hbig 0 0, p00, stdC1 rng T hbig]
  rw [← Complex.ofReal_mul, Complex.ofReal_re]

lemma hbig0 : ∀ i j : ℕ, i < 2 → j < 2 →
    wfeBig psdC1 rngZero i j = if i = 0 ∧ j = 0 then 36 else 0 := by
  intro i j hi hj
  rw [wfeBig_psdC1 rngZero 1 ftComplex_zero_stream i j hi hj, Complex.one_re,
    mul_one]

lemma hbigH : ∀ i j : ℕ, i < 2 → j < 2 →
    wfeBig psdC1 rngHalf i j = if i = 0 ∧ j = 0 then 36 * zHalf.re else 0 :=
  wfeBig_psdC1 rngHalf zHalf ftComplex_half_stream

/-- Witness for C1: at the flat PSD `[1,1,1]`, the all-zeros draw stream,
`rms = 1` and `pv = 0.25`, the hypotheses of `psd2wfe_normalization` hold
(the centred aperture standard deviation is `√243 ≠ 0`) and the
normalisation conclusions follow. -/
theorem psd2wfe_normalization_witness :
    (0 : ℝ) < 1 ∧
    astdC (psd2wfeAperture psdC1.length false 1)
      (psd2wfeCentered psdC1 rngZero false false 1) ≠ 0 ∧
    ((∀ p ∈ psd2wfeAperture psdC1.length false 1,
        (psd2wfe psdC1 rngZero 1 0.25 false 1 false p.1 p.2).im = 0) ∧
      ameanR (psd2wfeAperture psdC1.length false 1)
        (fun i j => (psd2wfe psdC1 rngZero 1 0.25 false 1 false i j).re) = 0 ∧
      astdR (psd2wfeAperture psdC1.length false 1)
        (fun i j => (psd2wfe psdC1 rngZero 1 0.25 false 1 false i j).re) = 1 ∧
      ∀ pv', psd2wfe psdC1 rngZero 1 0.25 false 1 false =
        psd2wfe psdC1 rngZero 1 pv' false 1 false) := by
  have hstd : astdC (psd2wfeAperture psdC1.length false 1)
      (psd2wfeCentered psdC1 rngZero false false 1) ≠ 0 := by
    rw [stdC1 rngZero 36 hbig0]
    exact Real.sqrt_ne_zero'.mpr (by norm_num)
  exact ⟨one_pos, hstd,
    psd2wfe_normalization psdC1 rngZero 1 0.25 false false 1 one_pos hstd⟩

/-- C9 (amended): the draws come from the process-wide stream; two runs whose
streams agree on the first `4 * psd.length ^ 2` draws (the `(2N)×(2N)` phase
screen, row-major) produce identical wavefront maps. There is no generator
parameter: the stream is the only state. -/
theorem psd2wfe_reproducible (psd : List ℝ) (rng rng' : ℕ → ℝ) (r pv : ℝ)
    (circular keep_defocus : Bool) (oversize : ℝ)
    (h : ∀ n, n < 4 * psd.length ^ 2 → rng n = rng' n) :
    psd2wfe psd rng r pv circular oversize keep_defocus =
      psd2wfe psd rng' r pv circular oversize keep_defocus := by
  have hft : ∀ a b : ℕ, a < 2 * psd.length → b < 2 * psd.length →
      ftComplex psd rng a b = ftComplex psd rng' a b := by
    intro a b ha hb
    rw [ftComplex, ftComplex, ftPhase, ftPhase, h (a * (2 * psd.length) + b)
      (by nlinarith)]
  have hbig : wfeBig psd rng = wfeBig psd rng' := by
    funext i j
    rw [wfeBig, wfeBig]
    congr 1
    refine Finset.sum_congr rfl fun a ha => Finset.sum_congr rfl fun b hb => ?_
    rw [hft a b (Finset.mem_range.mp ha) (Finset.mem_range.mp hb)]
  have hpre : psd2wfePre psd rng keep_defocus =
      psd2wfePre psd rng' keep_defocus := by
    funext i j
    rw [psd2wfePre, psd2wfePre, hbig]
  have hmask : psd2wfeMasked psd rng keep_defocus circular oversize =
      psd2wfeMasked psd rng' keep_defocus circular oversize := by
    funext i j
    rw [psd2wfeMasked, psd2wfeMasked, hpre]
  have hcent : psd2wfeCentered psd rng keep_defocus circular oversize =
      psd2wfeCentered psd rng' keep_defocus circular oversize := by
    funext i j
    rw [psd2wfeCentered, psd2wfeCentered, hmask]
  funext i j
  rw [psd2wfe, psd2wfe, hcent, hmask]

/-- A stream that agrees with the all-zeros stream on the first 36 draws and
then departs from it. -/
def rngZeroTail : ℕ → ℝ := fun n => if n < 36 then 0 else 1

/-- Witness for C9's amended statement: the all-zeros stream and
`rngZeroTail` agree on the first `4 * 3 ^ 2 = 36` draws, so the two runs of
`psd2wfe` coincide. -/
theorem psd2wfe_reproducible_witness :
    (∀ n, n < 4 * psdC1.length ^ 2 → rngZero n = rngZeroTail n) ∧
    psd2wfe psdC1 rngZero 1 0.25 false 1 false =
      psd2wfe psdC1 rngZeroTail 1 0.25 false 1 false := by
  have h : ∀ n, n < 4 * psdC1.length ^ 2 → rngZero n = rngZeroTail n := by
    intro n hn
    show (0 : ℝ) = if n < 36 then 0 else 1
    rw [if_pos (show n < 36 from hn)]
  exact ⟨h, psd2wfe_reproducible psdC1 rngZero rngZeroTail 1 0.25 false false 1 h⟩

lemma one_lt_sqrt_two : (1 : ℝ) < Real.sqrt 2 := by
  have h := Real.sqrt_lt_sqrt (by norm_num : (0 : ℝ) ≤ 1) (by norm_num : (1 : ℝ) < 2)
  rwa [Real.sqrt_one] at h

lemma sqrt_two_lt_two : Real.sqrt 2 < 2 := by
  have h := Real.sqrt_lt_sqrt (by norm_num : (0 : ℝ) ≤ 2) (by norm_num : (2 : ℝ) < 4)
  rwa [show (4 : ℝ) = 2 ^ 2 by norm_num,
    Real.sqrt_sq (by norm_num : (0 : ℝ) ≤ 2)] at h

/-- The constant-half draw stream multiplies each Fourier coefficient by
`exp(√(i)·π)`, whose real part `exp(√2/2·π)·cos(√2/2·π)` is negative because
`√2/2·π` lies strictly between `π/2` and `3π/2`. -/
lemma zHalf_re_neg : zHalf.re < 0 := by
  have hre : (sqrtI * ((Real.pi : ℝ) : ℂ)).re = Real.sqrt 2 / 2 * Real.pi := by
    rw [Complex.mul_re, Complex.ofReal_re, Complex.ofReal_im,
      show sqrtI.re = Real.sqrt 2 / 2 from rfl,
      show sqrtI.im = Real.sqrt 2 / 2 from rfl]
    ring
  have him : (sqrtI * ((Real.pi : ℝ) : ℂ)).im = Real.sqrt 2 / 2 * Real.pi := by
    rw [Complex.mul_im, Complex.ofReal_re, Complex.ofReal_im,
      show sqrtI.re = Real.sqrt 2 / 2 from rfl,
      show sqrtI.im = Real.sqrt 2 / 2 from rfl]
    ring
  rw [zHalf, Complex.exp_re, hre, him]
  have h1 := one_lt_sqrt_two
  have h2 := sqrt_two_lt_two
  have hπ := Real.pi_pos
  have hcos : Real.cos (Real.sqrt 2 / 2 * Real.pi) < 0 := by
    apply Real.cos_neg_of_pi_div_two_lt_of_lt
    · nlinarith [mul_pos (by linarith : (0 : ℝ) < Real.sqrt 2 - 1) hπ]
    · nlinarith [mul_pos (by linarith : (0 : ℝ) < 3 - Real.sqrt 2) hπ]
  exact mul_neg_of_pos_of_neg (Real.exp_pos _) hcos

/-- Counterexample to C9: with identical inputs (flat PSD `[1,1,1]`,
`rms = 1`, `pv = 0.25`, square aperture) but two different states of the
implicit process-wide draw stream — all draws 0 versus all draws 1/2 — the
two calls return different wavefront maps: the `(0,0)` sample has positive
real part under the first stream and negative real part under the second.
No caller-supplied generator exists to make the two calls agree. -/
theorem psd2wfe_global_stream_dependence :
    psd2wfe psdC1 rngZero 1 0.25 false 1 false 0 0 ≠
      psd2wfe psdC1 rngHalf 1 0.25 false 1 false 0 0 := by
  have hzn : zHalf.re < 0 := zHalf_re_neg
  have h0 : 0 < (psd2wfe psdC1 rngZero 1 0.25 false 1 false 0 0).re := by
    rw [outC1_re rngZero 36 hbig0]
    have hs : 0 < Real.sqrt (3 * (36 : ℝ) ^ 2 / 16) :=
      Real.sqrt_pos.mpr (by norm_num)
    have : 0 < 1 / Real.sqrt (3 * (36 : ℝ) ^ 2 / 16) := by
      rw [one_div]
      exact inv_pos.mpr hs
    nlinarith
  have hH : (psd2wfe psdC1 rngHalf 1 0.25 false 1 false 0 0).re < 0 := by
    rw [outC1_re rngHalf (36 * zHalf.re) hbigH]
    have hz2 : 0 < zHalf.re * zHalf.re := mul_pos_of_neg_of_neg hzn hzn
    have hs : 0 < Real.sqrt (3 * (36 * zHalf.re) ^ 2 / 16) :=
      Real.sqrt_pos.mpr (by nlinarith)
    have hnum : 3 * (36 * zHalf.re) / 4 < 0 := by nlinarith
    have hpos : 0 < 1 / Real.sqrt (3 * (36 * zHalf.re) ^ 2 / 16) := by
      rw [one_div]
      exact inv_pos.mpr hs
    exact mul_neg_of_neg_of_pos hnum hpos
  intro heq
  rw [heq] at h0
  linarith
